import Mathlib

/-!
# gerrit-hook: label aggregation, trigger conditions, reference extraction

A shallow embedding of the decision logic of the gerrit hook
(`gerrit/gerritapi.go`, `jenkins/trigger.go`, `github/comments.go`).

* Go `int` vote values are modelled as `Int` (no arithmetic is performed on
  them apart from comparison; the vote counter only ever counts list elements).
* The Go map `Change.Labels` is modelled as an association list; the `range`
  loops over it become left folds.
* Go strings are modelled as `String` / `List Char`.
* A Go call either returns or panics (`Outcome`); the change fetch
  `gerrit.QueryChange` goes through `gerritHTTPCall` and panics where it does.
-/

namespace GerritHook

/-! ## gerrit/gerritapi.go : data model -/

/-- One element of the `All` slice of a label: the account and the vote value. -/
structure Vote where
  AccountId : String
  Value : Int
  deriving DecidableEq, Repr

/-- The value type of the `Labels` map: `struct { All []struct{...} }`. -/
structure LabelInfo where
  All : List Vote
  deriving DecidableEq, Repr

/-- The part of `gerrit.Change` that the decision logic reads: the project and
the `Labels` map (label name to votes), as an association list. -/
structure Change where
  Project : String
  Labels : List (String × LabelInfo)
  deriving DecidableEq, Repr

/-- `func (c Change) LabelMax(name string) int` : `res := 0`, then for every
map entry whose key equals `name`, for every vote, `if vote.Value > res`. -/
def Change.LabelMax (c : Change) (name : String) : Int :=
  c.Labels.foldl
    (fun res entry =>
      if entry.1 = name then
        entry.2.All.foldl (fun res vote => if vote.Value > res then vote.Value else res) res
      else res)
    0

/-- `func (c Change) LabelMin(name string) int` : `res := 0`, then for every
map entry whose key equals `name`, for every vote, `if vote.Value < res`. -/
def Change.LabelMin (c : Change) (name : String) : Int :=
  c.Labels.foldl
    (fun res entry =>
      if entry.1 = name then
        entry.2.All.foldl (fun res vote => if vote.Value < res then vote.Value else res) res
      else res)
    0

/-- `func (c Change) LabelCount(name string, value int) int` : `res := 0`, then
for every map entry whose key equals `name`, for every vote,
`if vote.Value == value { res++ }`. -/
def Change.LabelCount (c : Change) (name : String) (value : Int) : Int :=
  c.Labels.foldl
    (fun res entry =>
      if entry.1 = name then
        entry.2.All.foldl (fun res vote => if vote.Value = value then res + 1 else res) res
      else res)
    0

/-- The vote values cast on label `name`, in iteration order: the values the
three aggregators above inspect. Used to state their specifications. -/
def Change.votesOn (c : Change) (name : String) : List Int :=
  (c.Labels.filter (fun entry => entry.1 = name)).flatMap (fun entry => entry.2.All.map Vote.Value)

/-! ## jenkins/trigger.go : conditions -/

/-- `var premergeCondition = func(change gerrit.Change) bool`. -/
def premergeCondition (change : Change) : Bool :=
  if change.LabelMax "Verified" = 1 ∧ change.LabelCount "Code-Review" 2 > 1
      ∧ change.LabelMin "Code-Review" > -2 then
    true
  else
    false

/-- `var verifyCondition = func(change gerrit.Change) bool`. -/
def verifyCondition (change : Change) : Bool :=
  if change.LabelMax "Verified" = 0 then
    true
  else
    false

/-! ## Example changes -/

/-- A change whose only vote on "Verified" is a failed verification (-1). -/
def changeFailedVerify : Change :=
  ⟨"storj/storj", [("Verified", ⟨[⟨"1000001", -1⟩]⟩)]⟩

/-- A change whose votes on "Code-Review" are all positive. -/
def changeApproved : Change :=
  ⟨"storj/storj", [("Code-Review", ⟨[⟨"1000001", 1⟩, ⟨"1000002", 2⟩]⟩)]⟩

/-- A change with a label that has an empty vote list and no other label. -/
def changeNoVotes : Change :=
  ⟨"storj/storj", [("Code-Review", ⟨[]⟩)]⟩

/-! ## Inner loops of the aggregators -/

/-- Inner loop of `LabelMax`. -/
def maxLoop (res : Int) (vs : List Int) : Int :=
  vs.foldl (fun res v => if v > res then v else res) res

/-- Inner loop of `LabelMin`. -/
def minLoop (res : Int) (vs : List Int) : Int :=
  vs.foldl (fun res v => if v < res then v else res) res

/-- Inner loop of `LabelCount`. -/
def countLoop (value : Int) (res : Int) (vs : List Int) : Int :=
  vs.foldl (fun res v => if v = value then res + 1 else res) res

/-! ## Go library functions used by the hook -/

/-- Body of `strings.Split(s, sep)` for a one-character separator (both call
sites use one: "\n" and "/"), on the characters of `s`. The result is never
empty; `Split("", sep)` is `[""]`. -/
def splitChars (sep : Char) : List Char → List (List Char)
  | [] => [[]]
  | c :: cs =>
    if c = sep then [] :: splitChars sep cs
    else
      match splitChars sep cs with
      | [] => [[c]]
      | part :: parts => (c :: part) :: parts

/-- `strings.Split(s, sep)` for a one-character separator. -/
def strings.Split (s : String) (sep : Char) : List String :=
  (splitChars sep s.data).map String.mk

/-- A single-character matcher of a regular expression. -/
inductive Atom where
  /-- a literal character -/
  | lit (c : Char)
  /-- the dot: any character except newline -/
  | any
  /-- a character class given by inclusive ranges, as in `[a-zA-Z0-9_-]` -/
  | cls (ranges : List (Char × Char))
  deriving Repr

/-- Whether the atom accepts the character. -/
def Atom.accepts : Atom → Char → Bool
  | .lit c, x => decide (x = c)
  | .any, x => !decide (x = '\n')
  | .cls ranges, x => ranges.any (fun r => decide (r.1 ≤ x) && decide (x ≤ r.2))

/-- The fragment of Go `regexp` syntax the two patterns of `findGithubRefs` use.
A non-capturing group `(?:r)` is `r` itself. -/
inductive Regex where
  /-- the empty expression -/
  | eps
  /-- one character -/
  | atom (a : Atom)
  /-- greedy `a+` over a single-character matcher -/
  | plus (a : Atom)
  /-- concatenation -/
  | seq (r₁ r₂ : Regex)
  /-- alternation `r₁|r₂`, preferring `r₁` -/
  | alt (r₁ r₂ : Regex)
  /-- greedy `r?` -/
  | opt (r : Regex)
  /-- capturing group number `i` -/
  | group (i : Nat) (r : Regex)
  deriving Repr

/-- The literal string `cs` as an expression. -/
def Regex.str : List Char → Regex
  | [] => .eps
  | c :: cs => .seq (.atom (.lit c)) (Regex.str cs)

/-- Captured groups, most recent first. -/
abbrev Caps := List (Nat × List Char)

/-- The text captured by group `i`; empty when the group did not take part. -/
def Caps.get (caps : Caps) (i : Nat) : List Char :=
  match caps.find? (fun e => e.1 = i) with
  | some e => e.2
  | none => []

/-- Greedy `a+` against the input with continuation `k`: consume as many
accepted characters as possible, giving back one at a time while `k` fails. -/
def plusGo {R : Type} (a : Atom) (k : List Char → Option R) : List Char → Option R
  | [] => none
  | c :: cs =>
    if a.accepts c then
      match plusGo a k cs with
      | some r => some r
      | none => k cs
    else none

/-- Backtracking match of `r` at the start of `s` with continuation `k`, trying
the alternatives in the priority order of Go's leftmost-first semantics: the
result is the first success in that order. -/
def Regex.run {R : Type} : Regex → List Char → Caps → (List Char → Caps → Option R) → Option R
  | .eps, s, caps, k => k s caps
  | .atom a, s, caps, k =>
    match s with
    | [] => none
    | c :: cs => if a.accepts c then k cs caps else none
  | .plus a, s, caps, k => plusGo a (fun rest => k rest caps) s
  | .seq r₁ r₂, s, caps, k => r₁.run s caps (fun s₁ caps₁ => r₂.run s₁ caps₁ k)
  | .alt r₁ r₂, s, caps, k =>
    match r₁.run s caps k with
    | some x => some x
    | none => r₂.run s caps k
  | .opt r, s, caps, k =>
    match r.run s caps k with
    | some x => some x
    | none => k s caps
  | .group i r, s, caps, k =>
    r.run s caps (fun s₁ caps₁ => k s₁ ((i, s.take (s.length - s₁.length)) :: caps₁))

/-- The match of `r` that starts at the beginning of `s`, if any: the matched
text and the captures. -/
def Regex.matchHere (r : Regex) (s : List Char) : Option (List Char × Caps) :=
  r.run s [] (fun rest caps => some (s.take (s.length - rest.length), caps))

/-- The leftmost match of `r` in `s`. -/
def Regex.search (r : Regex) : List Char → Option (List Char × Caps)
  | [] => r.matchHere []
  | c :: cs =>
    match r.matchHere (c :: cs) with
    | some m => some m
    | none => Regex.search r cs

/-- `(*Regexp).FindStringSubmatch(s)` for an expression with two capturing
groups: `none` is the nil slice, otherwise the matched text and the texts of
groups 1 and 2. -/
def Regex.FindStringSubmatch (r : Regex) (s : String) : Option (List String) :=
  match r.search s.data with
  | none => none
  | some (whole, caps) => some [String.mk whole, String.mk (caps.get 1), String.mk (caps.get 2)]

/-! ## github/comments.go -/

/-- `type githubRef struct { repo string; issue string }`. -/
structure githubRef where
  repo : String
  issue : String
  deriving DecidableEq, Repr

/-- The class `[a-zA-Z0-9_-]`. -/
def repoChars : Atom :=
  .cls [('a', 'z'), ('A', 'Z'), ('0', '9'), ('_', '_'), ('-', '-')]

/-- The class `\d`. -/
def digitChars : Atom :=
  .cls [('0', '9')]

/-- The sub-expression `[a-zA-Z0-9_-]+/[a-zA-Z0-9_-]+`. -/
def repoExpr : Regex :=
  .seq (.plus repoChars) (.seq (.atom (.lit '/')) (.plus repoChars))

/-- The expression `([a-zA-Z0-9_-]+/[a-zA-Z0-9_-]+)?#(\d+)`. -/
def issuePattern : Regex :=
  .seq (.opt (.group 1 repoExpr)) (.seq (.atom (.lit '#')) (.group 2 (.plus digitChars)))

/-- The expression
`https://github.com/([a-zA-Z0-9_-]+/[a-zA-Z0-9_-]+)/(?:pull|issues)/(\d+)`;
the dot of `github.com` is the any-character dot. -/
def urlPattern : Regex :=
  .seq (Regex.str "https://github".data)
    (.seq (.atom .any)
      (.seq (Regex.str "com/".data)
        (.seq (.group 1 repoExpr)
          (.seq (.atom (.lit '/'))
            (.seq (.alt (Regex.str "pull".data) (Regex.str "issues".data))
              (.seq (.atom (.lit '/')) (.group 2 (.plus digitChars))))))))

/-- The body of the loop of `findGithubRefs` for one line. -/
def findGithubRefsLine (refs : List githubRef) (line : String) : List githubRef :=
  let refs :=
    match issuePattern.FindStringSubmatch line with
    | some m => refs ++ [{ repo := m.getD 1 "", issue := m.getD 2 "" }]
    | none => refs
  match urlPattern.FindStringSubmatch line with
  | some m => refs ++ [{ repo := m.getD 1 "", issue := m.getD 2 "" }]
  | none => refs

/-- `func findGithubRefs(message string) (refs []githubRef)`. -/
def findGithubRefs (message : String) : List githubRef :=
  (strings.Split message '\n').foldl findGithubRefsLine []

/-- `func subtractRefs(currentRefs, oldRefs []githubRef) []githubRef` : the
inner loop `continue nextRef` skips `current` as soon as one `old` equals it. -/
def subtractRefs (currentRefs oldRefs : List githubRef) : List githubRef :=
  currentRefs.foldl
    (fun newRefs current =>
      if oldRefs.any (fun old => decide (current = old)) then newRefs
      else newRefs ++ [current])
    []

/-! ## Go errors -/

/-- A non-nil Go `error`: the messages it carries (several once combined). -/
structure Err where
  msgs : List String
  deriving DecidableEq, Repr

/-- `errs.Combine(errs...)` : nil when every argument is nil, the error itself
when exactly one is non-nil, otherwise one error combining the non-nil ones. -/
def errs.Combine (es : List (Option Err)) : Option Err :=
  match es.filterMap id with
  | [] => none
  | [e] => some e
  | many => some ⟨many.flatMap Err.msgs⟩

/-! ## gerrit/gerritapi.go : gerritHTTPCall -/

/-- What a piece of Go code does: it returns a value, or it panics. -/
inductive Outcome (α : Type) where
  | returned (a : α)
  | panicked (reason : String)
  deriving DecidableEq, Repr

/-- The part of `*http.Response` that `gerritHTTPCall` reads: the status code
and what `ioutil.ReadAll(httpResponse.Body)` gives. -/
structure HTTPResponse where
  StatusCode : Nat
  Body : Except Err (List UInt8)

/-- The Go slice expression `body[low:]` : it panics when `low > len(body)`. -/
def sliceFrom (body : List UInt8) (low : Nat) : Outcome (List UInt8) :=
  if low ≤ body.length then .returned (body.drop low)
  else .panicked "slice bounds out of range"

/-- `func gerritHTTPCall(ctx, url, result) error`, given what
`http.NewRequestWithContext` and `http.DefaultClient.Do` return and the decoder
`json.Unmarshal` for the type of `result`: the decoded value or the error. -/
def gerritHTTPCall {α : Type} (newRequest : Option Err) (doResult : Except Err HTTPResponse)
    (unmarshal : List UInt8 → Except Err α) : Outcome (Except Err α) :=
  match newRequest with
  | some err => .returned (.error err)
  | none =>
    match doResult with
    | .error err => .returned (.error err)
    | .ok httpResponse =>
      if httpResponse.StatusCode ≥ 300 then
        .returned (.error ⟨["couldn't get gerrit message"]⟩)
      else
        match httpResponse.Body with
        | .error err => .returned (.error err)
        | .ok body =>
          match sliceFrom body 5 with
          | .panicked reason => .panicked reason
          | .returned rest =>
            match unmarshal rest with
            | .error err => .returned (.error err)
            | .ok a => .returned (.ok a)

/-- `var gerritBaseURL`. -/
def gerritBaseURL : String := "https://review.dev.storj.io"

/-! ## jenkins/trigger.go : client and triggers -/

/-- `type Client struct` without the logger. -/
structure Client where
  Username : String
  Token : String
  projects : List String
  deriving Repr

/-- `func (c *Client) enabledProject(project string) bool`. -/
def Client.enabledProject (c : Client) (project : String) : Bool :=
  c.projects.any (fun p => decide (p = project))

/-- `func jenkinsProject(project string) string` : `parts[len(parts)-1]`. -/
def jenkinsProject (project : String) : String :=
  (strings.Split project '/').getLastD ""

/-- A call that crosses the boundary of the hook, as recorded in the trace. -/
inductive Call where
  /-- `gerrit.QueryChange(ctx, change)` -/
  | QueryChange (change : String)
  /-- `c.TriggerJob(ctx, job, parameters)` -/
  | TriggerJob (job : String) (parameters : List (String × String))
  deriving DecidableEq, Repr

/-- The external collaborators, over an arbitrary state `σ` of the outside
world: the review system answering the HTTP GET of `gerritHTTPCall`, the JSON
decoder, and the CI server answering the HTTP POST of `jenkinsHTTPCall`. -/
structure Boundary (σ : Type) where
  /-- For a URL: the error of `http.NewRequestWithContext`, if any, and what
  `http.DefaultClient.Do` and `ioutil.ReadAll` give for the GET request. -/
  GET : String → σ → (Option Err × Except Err HTTPResponse) × σ
  /-- `json.Unmarshal` of a response body into a `Change`. -/
  unmarshalChange : List UInt8 → Except Err Change
  /-- `c.jenkinsHTTPCall(ctx, url, nil)` : the HTTP POST and its error. -/
  jenkinsHTTPCall : String → σ → Option Err × σ

/-- `func QueryChange(ctx, change) (Change, error)` of package `gerrit`, on the
state of the outside world: one `gerritHTTPCall` on the URL of the change. It
returns the change or the error, or panics where `gerritHTTPCall` does. -/
def gerrit.QueryChange {σ : Type} (b : Boundary σ) (change : String) (s : σ) :
    Outcome (Except Err Change) × σ :=
  let url := gerritBaseURL ++ "/changes/" ++ change ++ "/?o=labels"
  let r := b.GET url s
  (gerritHTTPCall r.1.1 r.1.2 b.unmarshalChange, r.2)

/-- The outside world and the boundary calls made so far, oldest first. -/
structure World (σ : Type) where
  state : σ
  calls : List Call

/-- The URL built by `TriggerJob`; the `key=value` items are joined with "=". -/
def triggerUrl (job : String) (parameters : List (String × String)) : String :=
  "https://build.dev.storj.io/job/" ++ job ++ "/buildWithParameters?"
    ++ "=".intercalate (parameters.map (fun kv => kv.1 ++ "=" ++ kv.2))

/-- A call of `gerrit.QueryChange`, recorded in the trace. -/
def QueryChange {σ : Type} (b : Boundary σ) (change : String) (w : World σ) :
    Outcome (Except Err Change) × World σ :=
  let r := gerrit.QueryChange b change w.state
  (r.1, ⟨r.2, w.calls ++ [Call.QueryChange change]⟩)

/-- `func (c *Client) TriggerJob(ctx, job, parameters) error`. -/
def Client.TriggerJob {σ : Type} (b : Boundary σ) (_c : Client) (job : String)
    (parameters : List (String × String)) (w : World σ) : Option Err × World σ :=
  let r := b.jenkinsHTTPCall (triggerUrl job parameters) w.state
  (r.1, ⟨r.2, w.calls ++ [Call.TriggerJob job parameters]⟩)

/-- `func (c *Client) triggerJobIfRequired(ctx, changeId, commit, job, condition) error`;
a panic of the change fetch ends the call. -/
def Client.triggerJobIfRequired {σ : Type} (b : Boundary σ) (c : Client)
    (changeId commit job : String) (condition : Change → Bool) (w : World σ) :
    Outcome (Option Err) × World σ :=
  match QueryChange b changeId w with
  | (.panicked reason, w₁) => (.panicked reason, w₁)
  | (.returned (.error err), w₁) => (.returned (some err), w₁)
  | (.returned (.ok change), w₁) =>
    if !condition change then (.returned none, w₁)
    else
      match c.TriggerJob b job [("GERRIT_REF", commit)] w₁ with
      | (some err, w₂) => (.returned (some err), w₂)
      | (none, w₂) => (.returned none, w₂)

/-- `func (c *Client) TriggeredByNewPatch(ctx, project, change, commit) error`;
the two arguments of `errs.Combine` are evaluated left to right, and a panic
of the first ends the call before the second is evaluated. -/
def Client.TriggeredByNewPatch {σ : Type} (b : Boundary σ) (c : Client)
    (project change commit : String) (w : World σ) : Outcome (Option Err) × World σ :=
  if !c.enabledProject project then (.returned none, w)
  else
    match c.triggerJobIfRequired b change commit
      (jenkinsProject project ++ "-gerrit-verify") verifyCondition w with
    | (.panicked reason, w₁) => (.panicked reason, w₁)
    | (.returned err₁, w₁) =>
      match c.triggerJobIfRequired b change commit
        (jenkinsProject project ++ "-gerrit-premerge") premergeCondition w₁ with
      | (.panicked reason, w₂) => (.panicked reason, w₂)
      | (.returned err₂, w₂) => (.returned (errs.Combine [err₁, err₂]), w₂)

/-! ## jenkins/trigger.go : triggers by comment -/

/-- Body of `strings.Contains(s, substr)` on characters: `substr` starts at
some position of the input. -/
def containsChars (substr : List Char) : List Char → Bool
  | [] => substr.isEmpty
  | c :: cs => substr.isPrefixOf (c :: cs) || containsChars substr cs

/-- `strings.Contains(s, substr)`. -/
def strings.Contains (s substr : String) : Bool :=
  containsChars substr.data s.data

/-- `func (c *Client) TriggeredBySuccessVerify(ctx, project, change, commit, comment) error`. -/
def Client.TriggeredBySuccessVerify {σ : Type} (b : Boundary σ) (c : Client)
    (project change commit comment : String) (w : World σ) :
    Outcome (Option Err) × World σ :=
  if !c.enabledProject project then (.returned none, w)
  else if strings.Contains comment "build verify is finished successfully" then
    c.triggerJobIfRequired b change commit
      (jenkinsProject project ++ "-gerrit-premerge") premergeCondition w
  else (.returned none, w)

/-- The `if / else if` cascade of `TriggeredByComment` that sets `buildType`;
`none` is the final `else { return nil }`. -/
def commentBuildType (comment : String) : Option String :=
  if strings.Contains comment "run jenkins verify" then some "verify"
  else if strings.Contains comment "run jenkins premerge" then some "premerge"
  else if strings.Contains comment "run jenkins" then some "verify"
  else none

/-- `func (c *Client) TriggeredByComment(ctx, project, change, commit, comment) error`;
the log line is not modelled. -/
def Client.TriggeredByComment {σ : Type} (b : Boundary σ) (c : Client)
    (project change commit comment : String) (w : World σ) :
    Outcome (Option Err) × World σ :=
  if !c.enabledProject project then (.returned none, w)
  else
    match commentBuildType comment with
    | none => (.returned none, w)
    | some buildType =>
      c.triggerJobIfRequired b change commit
        (jenkinsProject project ++ "-gerrit-" ++ buildType) (fun _ => true) w

/-! ## github/comments.go : AddComment -/

/-- One call of the `postComment` argument of `AddComment`, with what it returned. -/
structure PostCall where
  orgRepo : String
  issue : String
  message : String
  result : Option Err
  deriving DecidableEq, Repr

/-- The collaborators of `AddComment` over a state `σ` of the outside world:
`gerrit.GetCommitMessage` and the `postComment` function argument. -/
structure NotifyBoundary (σ : Type) where
  GetCommitMessage : String → String → σ → Except Err String × σ
  postComment : String → String → String → σ → Option Err × σ

/-- The outside world and the `postComment` calls made so far, oldest first. -/
structure NotifyWorld (σ : Type) where
  state : σ
  posts : List PostCall

/-- The `for _, ref := range newRefs` loop of `AddComment`: an empty `repo` is
replaced by `project`, the comment is `fmt.Sprintf("Change %s mentions this
issue.", changeUrl)`, and the first error returns. -/
def notifyLoop {σ : Type} (b : NotifyBoundary σ) (project changeUrl : String) :
    List githubRef → NotifyWorld σ → Option Err × NotifyWorld σ
  | [], w => (none, w)
  | ref :: rest, w =>
    let ref : githubRef := if ref.repo = "" then { ref with repo := project } else ref
    let comment := "Change " ++ changeUrl ++ " mentions this issue."
    let r := b.postComment ref.repo ref.issue comment w.state
    let w₁ : NotifyWorld σ := ⟨r.2, w.posts ++ [⟨ref.repo, ref.issue, comment, r.1⟩]⟩
    match r.1 with
    | some err => (some err, w₁)
    | none => notifyLoop b project changeUrl rest w₁

/-- `func AddComment(ctx, project, change, commit, changeUrl, postComment) error`. -/
def AddComment {σ : Type} (b : NotifyBoundary σ) (project change commit changeUrl : String)
    (w : NotifyWorld σ) : Option Err × NotifyWorld σ :=
  match b.GetCommitMessage change commit w.state with
  | (.error err, s₁) => (some err, ⟨s₁, w.posts⟩)
  | (.ok message, s₁) =>
    let previousMessage := ""
    let currentRefs := findGithubRefs message
    let oldRefs := findGithubRefs previousMessage
    let newRefs := subtractRefs currentRefs oldRefs
    notifyLoop b project changeUrl newRefs ⟨s₁, w.posts⟩

/-! ## main.go : the argument loop -/

/-- `strings.HasPrefix(s, "--")` on characters. -/
def hasDashes (s : String) : Bool :=
  "--".data.isPrefixOf s.data

/-- `argMap[key] = value` on an association list. -/
def mapSet (argMap : List (String × String)) (key value : String) : List (String × String) :=
  (key, value) :: argMap.filter (fun kv => kv.1 ≠ key)

/-- The loop `for p := 1; p < len(os.Args); p++ { ... }` of `main`, from the
value `p` of the loop variable; `fuel` bounds the number of iterations and
`none` means it ran out. Indexing `os.Args[p+1]` past the end and slicing
`os.Args[p][2:]` on a shorter string panic. The length and the slice of
`os.Args[p]` are taken in characters, which are Go's bytes for ASCII arguments;
the index `p+1` into the argument list does not depend on this. -/
def argLoop (args : List String) :
    Nat → Nat → List (String × String) → Option (Outcome (List (String × String)))
  | 0, _, _ => none
  | fuel + 1, p, argMap =>
    if p < args.length then
      if args.length > p then
        match args[p + 1]? with
        | none => some (.panicked "index out of range")
        | some next =>
          if !hasDashes next then
            match args[p]? with
            | none => some (.panicked "index out of range")
            | some arg =>
              if 2 ≤ arg.length then
                argLoop args fuel (p + 1 + 1) (mapSet argMap (String.mk (arg.data.drop 2)) next)
              else some (.panicked "slice bounds out of range")
          else argLoop args fuel (p + 1) argMap
      else argLoop args fuel (p + 1) argMap
    else some (.returned argMap)

/-- The argument loop of `main` on `os.Args`, with one unit of fuel per argument
and one for the final test of the loop condition. -/
def parseArgs (args : List String) : Option (Outcome (List (String × String))) :=
  argLoop args (args.length + 1) 1 []

/-! ## Example clients and boundary -/

/-- A client whose allow-list holds the last path segment "storj". -/
def clientStorj : Client :=
  { Username := "jenkins", Token := "token", projects := ["storj"] }

/-- A client whose allow-list holds the full project name "storj/storj". -/
def clientStorjFull : Client :=
  { Username := "jenkins", Token := "token", projects := ["storj/storj"] }

/-- A response body: the five XSSI prevention bytes `)]}'` and newline, then `{}`. -/
def bodyWithXSSI : List UInt8 :=
  [41, 93, 125, 39, 10, 123, 125]

/-- A boundary over a call counter: every GET is answered with status 200 and
`bodyWithXSSI`, decoded as `changeNoVotes`, and every trigger call succeeds. -/
def boundaryAllOk : Boundary Nat :=
  { GET := fun _ n => ((none, .ok ⟨200, .ok bodyWithXSSI⟩), n + 1),
    unmarshalChange := fun _ => .ok changeNoVotes,
    jenkinsHTTPCall := fun _ n => (none, n + 1) }

/-- A change that is verified and has two +2 code reviews. -/
def changePremergeReady : Change :=
  ⟨"storj/storj",
    [("Verified", ⟨[⟨"1000001", 1⟩]⟩),
     ("Code-Review", ⟨[⟨"1000002", 2⟩, ⟨"1000003", 2⟩]⟩)]⟩

/-- A boundary over a call counter: every GET is answered with status 200 and
`bodyWithXSSI`, decoded as `changePremergeReady`, and every trigger call
succeeds. -/
def boundaryReady : Boundary Nat :=
  { GET := fun _ n => ((none, .ok ⟨200, .ok bodyWithXSSI⟩), n + 1),
    unmarshalChange := fun _ => .ok changePremergeReady,
    jenkinsHTTPCall := fun _ n => (none, n + 1) }

/-- A boundary over a call counter whose first GET is answered with status 500;
later ones with status 200 and `bodyWithXSSI`, decoded as
`changePremergeReady`; every trigger call succeeds. -/
def boundaryFirstFetchFails : Boundary Nat :=
  { GET := fun _ n =>
      if n = 0 then ((none, .ok ⟨500, .ok []⟩), n + 1)
      else ((none, .ok ⟨200, .ok bodyWithXSSI⟩), n + 1),
    unmarshalChange := fun _ => .ok changePremergeReady,
    jenkinsHTTPCall := fun _ n => (none, n + 1) }

/-- A boundary over a call counter: every GET is answered with status 200 and
an empty body; every trigger call succeeds. -/
def boundaryEmptyBody : Boundary Nat :=
  { GET := fun _ n => ((none, .ok ⟨200, .ok []⟩), n + 1),
    unmarshalChange := fun _ => .error ⟨["unexpected end of JSON input"]⟩,
    jenkinsHTTPCall := fun _ n => (none, n + 1) }

/-- A notification boundary over a call counter: the commit message mentions
issue 1 on two lines, and every post succeeds. -/
def notifyTwoLines : NotifyBoundary Nat :=
  { GetCommitMessage := fun _ _ n => (.ok "Fixes #1\nSee also #1", n + 1),
    postComment := fun _ _ _ n => (none, n + 1) }

/-- A notification boundary over a call counter: the commit message mentions
three issues, and the second post fails. -/
def notifySecondFails : NotifyBoundary Nat :=
  { GetCommitMessage := fun _ _ n => (.ok "Fixes #1\nSee acme/widgets#2\nand #3", n + 1),
    postComment := fun _ _ _ n =>
      if n = 2 then (some ⟨["POST url is failed"]⟩, n + 1) else (none, n + 1) }

/-! ## Helper lemmas -/

theorem foldl_votes_map (f : Int → Int → Int) (res : Int) (vs : List Vote) :
    vs.foldl (fun res vote => f res vote.Value) res = (vs.map Vote.Value).foldl f res := by
  induction vs generalizing res with
  | nil => rfl
  | cons v vs ih => simp [List.foldl_cons, ih]

theorem outer_fold_eq (f : Int → Int → Int) (name : String) (ls : List (String × LabelInfo))
    (res : Int) :
    ls.foldl
      (fun res entry =>
        if entry.1 = name then entry.2.All.foldl (fun res vote => f res vote.Value) res else res)
      res
    = ((ls.filter (fun entry => entry.1 = name)).flatMap
        (fun entry => entry.2.All.map Vote.Value)).foldl f res := by
  induction ls generalizing res with
  | nil => rfl
  | cons e ls ih =>
    by_cases h : e.1 = name
    · simp only [List.foldl_cons, List.filter_cons, h, decide_True, if_true, List.flatMap_cons,
        List.foldl_append, foldl_votes_map]
      rw [← ih]
      simp only [foldl_votes_map]
    · simp only [List.foldl_cons, List.filter_cons, h, decide_False, if_false, Bool.false_eq_true]
      exact ih res

theorem LabelMax_eq (c : Change) (name : String) :
    c.LabelMax name = maxLoop 0 (c.votesOn name) := by
  unfold Change.LabelMax Change.votesOn maxLoop
  exact outer_fold_eq (fun res v => if v > res then v else res) name c.Labels 0

theorem LabelMin_eq (c : Change) (name : String) :
    c.LabelMin name = minLoop 0 (c.votesOn name) := by
  unfold Change.LabelMin Change.votesOn minLoop
  exact outer_fold_eq (fun res v => if v < res then v else res) name c.Labels 0

theorem LabelCount_eq (c : Change) (name : String) (value : Int) :
    c.LabelCount name value = countLoop value 0 (c.votesOn name) := by
  unfold Change.LabelCount Change.votesOn countLoop
  exact outer_fold_eq (fun res v => if v = value then res + 1 else res) name c.Labels 0

theorem maxLoop_ge (res : Int) (vs : List Int) :
    res ≤ maxLoop res vs ∧ ∀ v ∈ vs, v ≤ maxLoop res vs := by
  induction vs generalizing res with
  | nil => simp [maxLoop]
  | cons x xs ih =>
    have h := ih (if x > res then x else res)
    simp only [maxLoop, List.foldl_cons] at h ⊢
    by_cases hx : x > res
    · simp only [hx, if_true] at h ⊢
      refine ⟨by omega, ?_⟩
      intro v hv
      rcases List.mem_cons.1 hv with rfl | hv
      · exact h.1
      · exact h.2 v hv
    · simp only [hx, if_false] at h ⊢
      refine ⟨h.1, ?_⟩
      intro v hv
      rcases List.mem_cons.1 hv with rfl | hv
      · omega
      · exact h.2 v hv

theorem maxLoop_mem (res : Int) (vs : List Int) :
    maxLoop res vs = res ∨ maxLoop res vs ∈ vs := by
  induction vs generalizing res with
  | nil => simp [maxLoop]
  | cons x xs ih =>
    have h := ih (if x > res then x else res)
    simp only [maxLoop, List.foldl_cons] at h ⊢
    rcases h with h | h
    · rw [h]; split_ifs <;> simp
    · exact Or.inr (List.mem_cons_of_mem _ h)

theorem minLoop_le (res : Int) (vs : List Int) :
    minLoop res vs ≤ res ∧ ∀ v ∈ vs, minLoop res vs ≤ v := by
  induction vs generalizing res with
  | nil => simp [minLoop]
  | cons x xs ih =>
    have h := ih (if x < res then x else res)
    simp only [minLoop, List.foldl_cons] at h ⊢
    by_cases hx : x < res
    · simp only [hx, if_true] at h ⊢
      refine ⟨by omega, ?_⟩
      intro v hv
      rcases List.mem_cons.1 hv with rfl | hv
      · exact h.1
      · exact h.2 v hv
    · simp only [hx, if_false] at h ⊢
      refine ⟨h.1, ?_⟩
      intro v hv
      rcases List.mem_cons.1 hv with rfl | hv
      · omega
      · exact h.2 v hv

theorem minLoop_mem (res : Int) (vs : List Int) :
    minLoop res vs = res ∨ minLoop res vs ∈ vs := by
  induction vs generalizing res with
  | nil => simp [minLoop]
  | cons x xs ih =>
    have h := ih (if x < res then x else res)
    simp only [minLoop, List.foldl_cons] at h ⊢
    rcases h with h | h
    · rw [h]; split_ifs <;> simp
    · exact Or.inr (List.mem_cons_of_mem _ h)

theorem countLoop_eq (value res : Int) (vs : List Int) :
    countLoop value res vs = res + (vs.count value : Int) := by
  induction vs generalizing res with
  | nil => simp [countLoop]
  | cons x xs ih =>
    have h := ih (if x = value then res + 1 else res)
    simp only [countLoop, List.foldl_cons] at h ⊢
    rw [h, List.count_cons]
    by_cases hx : x = value
    · simp [hx]; omega
    · simp [hx]

theorem mem_votesOn (c : Change) (name : String) (v : Int) :
    v ∈ c.votesOn name ↔
      ∃ entry ∈ c.Labels, entry.1 = name ∧ ∃ vote ∈ entry.2.All, vote.Value = v := by
  simp only [Change.votesOn, List.mem_flatMap, List.mem_filter, List.mem_map,
    decide_eq_true_eq]
  constructor
  · rintro ⟨e, ⟨he, hn⟩, vote, hv, rfl⟩
    exact ⟨e, he, hn, vote, hv, rfl⟩
  · rintro ⟨e, he, hn, vote, hv, rfl⟩
    exact ⟨e, ⟨he, hn⟩, vote, hv, rfl⟩

theorem maxLoop_zero_eq_one_iff (vs : List Int) :
    maxLoop 0 vs = 1 ↔ (1 ∈ vs ∧ ∀ v ∈ vs, ¬ v > 1) := by
  have hge := maxLoop_ge 0 vs
  have hmem := maxLoop_mem 0 vs
  constructor
  · intro h
    rw [h] at hge hmem
    refine ⟨?_, ?_⟩
    · rcases hmem with h0 | h1
      · omega
      · exact h1
    · intro v hv
      have := hge.2 v hv
      omega
  · rintro ⟨h1, hall⟩
    have hle := hge.2 1 h1
    rcases hmem with h0 | hm
    · omega
    · have := hall _ hm
      omega

theorem countLoop_two_gt_one_iff (vs : List Int) :
    countLoop 2 0 vs > 1 ↔ List.Sublist [2, 2] vs := by
  rw [countLoop_eq]
  have h := List.le_count_iff_replicate_sublist (n := 2) (a := (2 : Int)) (l := vs)
  simp only [List.replicate] at h
  rw [← h]
  omega

theorem minLoop_zero_gt_iff (vs : List Int) :
    minLoop 0 vs > -2 ↔ ∀ v ∈ vs, ¬ v ≤ -2 := by
  have hle := minLoop_le 0 vs
  have hmem := minLoop_mem 0 vs
  constructor
  · intro h v hv
    have := hle.2 v hv
    omega
  · intro hall
    rcases hmem with h0 | hm
    · omega
    · have := hall _ hm
      omega

/-! ## Claims on the label aggregators and the trigger conditions -/

/-- C1: `premergeCondition` holds exactly when (1) some vote on "Verified" is 1
and none is greater than 1, (2) at least two votes on "Code-Review" are exactly 2
(the list `[2, 2]` is a sublist of the votes), and (3) no vote on "Code-Review"
is less than or equal to -2. -/
theorem premergeCondition_iff (c : Change) :
    premergeCondition c = true ↔
      ((1 ∈ c.votesOn "Verified" ∧ ∀ v ∈ c.votesOn "Verified", ¬ v > 1)
        ∧ List.Sublist [2, 2] (c.votesOn "Code-Review")
        ∧ ∀ v ∈ c.votesOn "Code-Review", ¬ v ≤ -2) := by
  rw [← maxLoop_zero_eq_one_iff, ← countLoop_two_gt_one_iff, ← minLoop_zero_gt_iff,
    ← LabelMax_eq, ← LabelCount_eq, ← LabelMin_eq]
  unfold premergeCondition
  split_ifs with h
  · simp only [true_iff]
    exact h
  · simp only [Bool.false_eq_true, false_iff]
    exact h

/-- C3 (counterexample): on a change whose only "Verified" vote is -1 the label
has a vote, yet `LabelMax` returns 0, which is not a vote cast on the label (the
highest vote is -1). -/
theorem LabelMax_not_highest_vote :
    changeFailedVerify.votesOn "Verified" = [-1]
      ∧ changeFailedVerify.LabelMax "Verified" = 0
      ∧ ¬ (changeFailedVerify.votesOn "Verified" ≠ [] →
            (changeFailedVerify.LabelMax "Verified" ∈ changeFailedVerify.votesOn "Verified"
              ∧ ∀ v ∈ changeFailedVerify.votesOn "Verified",
                  v ≤ changeFailedVerify.LabelMax "Verified")) := by
  decide

/-- C3 (amended): `LabelMax name` is the largest of 0 and the vote values cast
on the label: it is at least 0 and at least every vote, it is 0 or one of the
votes, it is the highest vote as soon as some vote is non-negative, and it is 0
when the label is absent or has no votes. -/
theorem LabelMax_spec (c : Change) (name : String) :
    (0 ≤ c.LabelMax name ∧ ∀ v ∈ c.votesOn name, v ≤ c.LabelMax name)
      ∧ (c.LabelMax name = 0 ∨ c.LabelMax name ∈ c.votesOn name)
      ∧ ((∃ v ∈ c.votesOn name, 0 ≤ v) → c.LabelMax name ∈ c.votesOn name)
      ∧ (c.votesOn name = [] → c.LabelMax name = 0) := by
  rw [LabelMax_eq]
  have hge := maxLoop_ge 0 (c.votesOn name)
  have hmem := maxLoop_mem 0 (c.votesOn name)
  refine ⟨hge, hmem, ?_, ?_⟩
  · rintro ⟨v, hv, hv0⟩
    rcases hmem with h0 | hm
    · have hle := hge.2 v hv
      have hv' : v = maxLoop 0 (c.votesOn name) := by omega
      rw [← hv']
      exact hv
    · exact hm
  · intro hnil
    rw [hnil]
    rfl

/-- C4 (counterexample): on a change whose "Code-Review" votes are 1 and 2 the
label has votes, yet `LabelMin` returns 0, which is not a vote cast on the label
(the lowest vote is 1). -/
theorem LabelMin_not_lowest_vote :
    changeApproved.votesOn "Code-Review" = [1, 2]
      ∧ changeApproved.LabelMin "Code-Review" = 0
      ∧ ¬ (changeApproved.votesOn "Code-Review" ≠ [] →
            (changeApproved.LabelMin "Code-Review" ∈ changeApproved.votesOn "Code-Review"
              ∧ ∀ v ∈ changeApproved.votesOn "Code-Review",
                  changeApproved.LabelMin "Code-Review" ≤ v)) := by
  decide

/-- C4 (amended): `LabelMin name` is the smallest of 0 and the vote values cast
on the label: it is at most 0 and at most every vote, it is 0 or one of the
votes, it is the lowest vote as soon as some vote is non-positive, and it is 0
when the label is absent or has no votes. -/
theorem LabelMin_spec (c : Change) (name : String) :
    (c.LabelMin name ≤ 0 ∧ ∀ v ∈ c.votesOn name, c.LabelMin name ≤ v)
      ∧ (c.LabelMin name = 0 ∨ c.LabelMin name ∈ c.votesOn name)
      ∧ ((∃ v ∈ c.votesOn name, v ≤ 0) → c.LabelMin name ∈ c.votesOn name)
      ∧ (c.votesOn name = [] → c.LabelMin name = 0) := by
  rw [LabelMin_eq]
  have hle := minLoop_le 0 (c.votesOn name)
  have hmem := minLoop_mem 0 (c.votesOn name)
  refine ⟨hle, hmem, ?_, ?_⟩
  · rintro ⟨v, hv, hv0⟩
    rcases hmem with h0 | hm
    · have hle' := hle.2 v hv
      have hv' : v = minLoop 0 (c.votesOn name) := by omega
      rw [← hv']
      exact hv
    · exact hm
  · intro hnil
    rw [hnil]
    rfl

theorem votesOn_eq_nil (c : Change) (name : String)
    (h : ∀ entry ∈ c.Labels, entry.1 = name → entry.2.All = []) :
    c.votesOn name = [] := by
  apply List.eq_nil_iff_forall_not_mem.2
  intro v hv
  obtain ⟨entry, he, hn, vote, hvote, _⟩ := (mem_votesOn c name v).1 hv
  rw [h entry he hn] at hvote
  exact List.not_mem_nil _ hvote

/-- C5: when `name` is not a key of `c.Labels`, or every entry under that key
has an empty vote list, `LabelMax`, `LabelMin` and `LabelCount` (for every
value) all return 0. -/
theorem Label_absent_zero (c : Change) (name : String) (value : Int)
    (h : ∀ entry ∈ c.Labels, entry.1 = name → entry.2.All = []) :
    c.LabelMax name = 0 ∧ c.LabelMin name = 0 ∧ c.LabelCount name value = 0 := by
  rw [LabelMax_eq, LabelMin_eq, LabelCount_eq, votesOn_eq_nil c name h]
  exact ⟨rfl, rfl, rfl⟩

/-- C5 (witness): the label "Verified" is absent from `changeNoVotes`. -/
theorem Label_absent_zero_witness :
    (∀ entry ∈ changeNoVotes.Labels, entry.1 = "Verified" → entry.2.All = [])
      ∧ changeNoVotes.LabelMax "Verified" = 0 ∧ changeNoVotes.LabelMin "Verified" = 0
      ∧ changeNoVotes.LabelCount "Verified" 2 = 0 :=
  ⟨by decide, Label_absent_zero changeNoVotes "Verified" 2 (by decide)⟩

/-! ## Helper lemmas on the regular-expression matcher -/

theorem repoChars_accepts_iff (c : Char) :
    repoChars.accepts c = true ↔ (c.isAlphanum = true ∨ c = '_' ∨ c = '-') := by
  simp only [repoChars, Atom.accepts, List.any_cons, List.any_nil, Bool.or_false, Bool.or_eq_true,
    Bool.and_eq_true, decide_eq_true_eq, Char.isAlphanum, Char.isAlpha, Char.isUpper, Char.isLower,
    Char.isDigit, Char.le_def]
  have e1 : 'a'.val = 97 := rfl
  have e2 : 'z'.val = 122 := rfl
  have e3 : 'A'.val = 65 := rfl
  have e4 : 'Z'.val = 90 := rfl
  have e5 : '0'.val = 48 := rfl
  have e6 : '9'.val = 57 := rfl
  have e7 : '_'.val = 95 := rfl
  have e8 : '-'.val = 45 := rfl
  have h1 : c = '_' ↔ c.val = 95 := by rw [Char.ext_iff, e7]
  have h2 : c = '-' ↔ c.val = 45 := by rw [Char.ext_iff, e8]
  rw [e1, e2, e3, e4, e5, e6, e7, e8, h1, h2]
  generalize c.val = v
  simp only [UInt32.le_def, ge_iff_le, UInt32.ext_iff, BitVec.le_def, UInt32.toNat]
  have n1 : (UInt32.toBitVec 97).toNat = 97 := rfl
  have n2 : (UInt32.toBitVec 122).toNat = 122 := rfl
  have n3 : (UInt32.toBitVec 65).toNat = 65 := rfl
  have n4 : (UInt32.toBitVec 90).toNat = 90 := rfl
  have n5 : (UInt32.toBitVec 48).toNat = 48 := rfl
  have n6 : (UInt32.toBitVec 57).toNat = 57 := rfl
  have n7 : (UInt32.toBitVec 95).toNat = 95 := rfl
  have n8 : (UInt32.toBitVec 45).toNat = 45 := rfl
  rw [n1, n2, n3, n4, n5, n6, n7, n8]
  generalize v.toBitVec.toNat = n
  omega

theorem digitChars_accepts_iff (c : Char) :
    digitChars.accepts c = true ↔ c.isDigit = true := by
  simp only [digitChars, Atom.accepts, List.any_cons, List.any_nil, Bool.or_false,
    Bool.and_eq_true, decide_eq_true_eq, Char.isDigit, Char.le_def]
  have e5 : '0'.val = 48 := rfl
  have e6 : '9'.val = 57 := rfl
  rw [e5, e6]

theorem repoChars_of_digit (c : Char) (h : c.isDigit = true) : repoChars.accepts c = true := by
  rw [repoChars_accepts_iff]
  left
  simp [Char.isAlphanum, h]

theorem repoChars_ne (c : Char) (h : repoChars.accepts c = true) :
    c ≠ '#' ∧ c ≠ ':' ∧ c ≠ '\n' ∧ c ≠ '/' := by
  refine ⟨?_, ?_, ?_, ?_⟩ <;>
  · intro hc
    subst hc
    revert h
    decide

theorem plusGo_head_reject {R : Type} (a : Atom) (k : List Char → Option R) (s : List Char)
    (h : ∀ c, s.head? = some c → a.accepts c = false) : plusGo a k s = none := by
  cases s with
  | nil => rfl
  | cons c cs => simp [plusGo, h c rfl]

/-- Greedy repetition takes the whole run of accepted characters when the
continuation succeeds right after it. -/
theorem plusGo_greedy {R : Type} (a : Atom) (k : List Char → Option R) (xs rest : List Char)
    (hxs : ∀ c ∈ xs, a.accepts c = true) (hne : xs ≠ [])
    (hrest : ∀ c, rest.head? = some c → a.accepts c = false) (r : R) (hk : k rest = some r) :
    plusGo a k (xs ++ rest) = some r := by
  induction xs with
  | nil => exact absurd rfl hne
  | cons x xs ih =>
    have hx : a.accepts x = true := hxs x (List.mem_cons_self _ _)
    by_cases hnil : xs = []
    · subst hnil
      simp [plusGo, hx, plusGo_head_reject a k rest hrest, hk]
    · have h := ih (fun c hc => hxs c (List.mem_cons_of_mem _ hc)) hnil
      simp [plusGo, hx, h]

theorem plusGo_some_suffix {R : Type} (a : Atom) (k : List Char → Option R) (s : List Char)
    (x : R) (h : plusGo a k s = some x) : ∃ p t, s = p ++ t ∧ k t = some x := by
  induction s with
  | nil => simp [plusGo] at h
  | cons c cs ih =>
    simp only [plusGo] at h
    split_ifs at h with hc
    cases hgo : plusGo a k cs with
    | some y =>
      rw [hgo] at h
      obtain ⟨p, t, hp, ht⟩ := ih (by rw [hgo, ← h])
      exact ⟨c :: p, t, by rw [hp]; rfl, ht⟩
    | none =>
      rw [hgo] at h
      exact ⟨[c], cs, rfl, h⟩

/-- A successful match ran its continuation successfully on a suffix of the input. -/
theorem run_some_suffix {R : Type} (r : Regex) :
    ∀ (s : List Char) (caps : Caps) (k : List Char → Caps → Option R) (x : R),
      r.run s caps k = some x → ∃ p t caps₁, s = p ++ t ∧ k t caps₁ = some x := by
  induction r with
  | eps =>
    intro s caps k x h
    exact ⟨[], s, caps, rfl, h⟩
  | atom a =>
    intro s caps k x h
    cases s with
    | nil => simp [Regex.run] at h
    | cons c cs =>
      simp only [Regex.run] at h
      split_ifs at h
      exact ⟨[c], cs, caps, rfl, h⟩
  | plus a =>
    intro s caps k x h
    obtain ⟨p, t, hp, ht⟩ := plusGo_some_suffix a _ s x h
    exact ⟨p, t, caps, hp, ht⟩
  | seq r₁ r₂ ih₁ ih₂ =>
    intro s caps k x h
    obtain ⟨p₁, t₁, c₁, hp₁, h₁⟩ := ih₁ s caps _ x h
    obtain ⟨p₂, t₂, c₂, hp₂, h₂⟩ := ih₂ t₁ c₁ k x h₁
    exact ⟨p₁ ++ p₂, t₂, c₂, by rw [hp₁, hp₂, List.append_assoc], h₂⟩
  | alt r₁ r₂ ih₁ ih₂ =>
    intro s caps k x h
    simp only [Regex.run] at h
    cases h₁ : r₁.run s caps k with
    | some y =>
      rw [h₁] at h
      exact ih₁ s caps k x (by rw [h₁, ← h])
    | none =>
      rw [h₁] at h
      exact ih₂ s caps k x h
  | opt r ih =>
    intro s caps k x h
    simp only [Regex.run] at h
    cases h₁ : r.run s caps k with
    | some y =>
      rw [h₁] at h
      exact ih s caps k x (by rw [h₁, ← h])
    | none =>
      rw [h₁] at h
      exact ⟨[], s, caps, rfl, h⟩
  | group i r ih =>
    intro s caps k x h
    obtain ⟨p, t, c₁, hp, h₁⟩ := ih s caps _ x h
    exact ⟨p, t, _, hp, h₁⟩

theorem run_str_append {R : Type} (cs s : List Char) (caps : Caps)
    (k : List Char → Caps → Option R) :
    (Regex.str cs).run (cs ++ s) caps k = k s caps := by
  induction cs with
  | nil => rfl
  | cons c cs ih => simp [Regex.str, Regex.run, Atom.accepts, ih]

theorem run_str_some {R : Type} (cs s : List Char) (caps : Caps)
    (k : List Char → Caps → Option R) (x : R) (h : (Regex.str cs).run s caps k = some x) :
    ∃ t, s = cs ++ t ∧ k t caps = some x := by
  induction cs generalizing s with
  | nil => exact ⟨s, rfl, h⟩
  | cons c cs ih =>
    cases s with
    | nil => simp [Regex.str, Regex.run] at h
    | cons d ds =>
      simp only [Regex.str, Regex.run, Atom.accepts] at h
      split_ifs at h with hd
      have hd' : d = c := by simpa using hd
      obtain ⟨t, ht, hk⟩ := ih ds h
      exact ⟨t, by rw [hd', ht]; rfl, hk⟩

theorem take_length_sub_append (a b : List Char) :
    (a ++ b).take ((a ++ b).length - b.length) = a := by
  simp

theorem search_of_matchHere (r : Regex) (s : List Char) (m : List Char × Caps)
    (h : r.matchHere s = some m) : r.search s = some m := by
  cases s with
  | nil => exact h
  | cons c cs => simp [Regex.search, h]

theorem search_none (r : Regex) (s : List Char)
    (h : ∀ p t, s = p ++ t → r.matchHere t = none) : r.search s = none := by
  induction s with
  | nil => exact h [] [] rfl
  | cons c cs ih =>
    have h₁ : r.matchHere (c :: cs) = none := h [] (c :: cs) rfl
    have h₂ : r.search cs = none := ih (fun p t hpt => h (c :: p) t (by rw [hpt]; rfl))
    simp [Regex.search, h₁, h₂]

theorem issuePattern_matchHere_none (s : List Char) (h : '#' ∉ s) :
    issuePattern.matchHere s = none := by
  cases hm : issuePattern.matchHere s with
  | none => rfl
  | some x =>
    exfalso
    unfold Regex.matchHere issuePattern at hm
    rw [Regex.run] at hm
    obtain ⟨p, t, caps₁, hp, hk⟩ := run_some_suffix _ s [] _ x hm
    cases t with
    | nil => simp [Regex.run] at hk
    | cons c cs =>
      simp only [Regex.run, Atom.accepts] at hk
      split_ifs at hk with hc
      have hc' : c = '#' := by simpa using hc
      apply h
      rw [hp, hc']
      simp

theorem issuePattern_search_none (s : List Char) (h : '#' ∉ s) :
    issuePattern.search s = none := by
  apply search_none
  intro p t hpt
  apply issuePattern_matchHere_none
  intro ht
  apply h
  rw [hpt]
  exact List.mem_append_right _ ht

theorem urlPattern_matchHere_none (s : List Char) (h : ':' ∉ s) :
    urlPattern.matchHere s = none := by
  cases hm : urlPattern.matchHere s with
  | none => rfl
  | some x =>
    exfalso
    unfold Regex.matchHere urlPattern at hm
    rw [Regex.run] at hm
    obtain ⟨t, ht, _⟩ := run_str_some _ s [] _ x hm
    apply h
    rw [ht]
    apply List.mem_append_left
    decide

theorem urlPattern_search_none (s : List Char) (h : ':' ∉ s) :
    urlPattern.search s = none := by
  apply search_none
  intro p t hpt
  apply urlPattern_matchHere_none
  intro ht
  apply h
  rw [hpt]
  exact List.mem_append_right _ ht

theorem run_seq {R : Type} (r₁ r₂ : Regex) (s : List Char) (caps : Caps)
    (k : List Char → Caps → Option R) :
    (Regex.seq r₁ r₂).run s caps k = r₁.run s caps (fun s₁ caps₁ => r₂.run s₁ caps₁ k) := by
  rw [Regex.run]

theorem run_group {R : Type} (i : Nat) (r : Regex) (s : List Char) (caps : Caps)
    (k : List Char → Caps → Option R) :
    (Regex.group i r).run s caps k
      = r.run s caps (fun s₁ caps₁ => k s₁ ((i, s.take (s.length - s₁.length)) :: caps₁)) := by
  rw [Regex.run]

theorem run_atom_cons {R : Type} (a : Atom) (c : Char) (cs : List Char) (caps : Caps)
    (k : List Char → Caps → Option R) :
    (Regex.atom a).run (c :: cs) caps k = if a.accepts c = true then k cs caps else none := by
  rw [Regex.run]

theorem run_opt_some {R : Type} (r : Regex) (s : List Char) (caps : Caps)
    (k : List Char → Caps → Option R) (x : R) (h : r.run s caps k = some x) :
    (Regex.opt r).run s caps k = some x := by
  rw [Regex.run, h]

theorem run_alt_left {R : Type} (r₁ r₂ : Regex) (s : List Char) (caps : Caps)
    (k : List Char → Caps → Option R) (x : R) (h : r₁.run s caps k = some x) :
    (Regex.alt r₁ r₂).run s caps k = some x := by
  rw [Regex.run, h]

theorem run_alt_right {R : Type} (r₁ r₂ : Regex) (s : List Char) (caps : Caps)
    (k : List Char → Caps → Option R) (h : r₁.run s caps k = none) :
    (Regex.alt r₁ r₂).run s caps k = r₂.run s caps k := by
  rw [Regex.run, h]

/-- The expression `[a-zA-Z0-9_-]+/[a-zA-Z0-9_-]+` consumes the whole of
`owner/name` when the continuation succeeds right after it. -/
theorem repoExpr_run {R : Type} (owner name rest : List Char) (caps : Caps)
    (k : List Char → Caps → Option R)
    (ho : ∀ c ∈ owner, repoChars.accepts c = true) (hone : owner ≠ [])
    (hn : ∀ c ∈ name, repoChars.accepts c = true) (hnne : name ≠ [])
    (hrest : ∀ c, rest.head? = some c → repoChars.accepts c = false)
    (r : R) (hk : k rest caps = some r) :
    repoExpr.run (owner ++ '/' :: (name ++ rest)) caps k = some r := by
  unfold repoExpr
  rw [Regex.run, Regex.run]
  apply plusGo_greedy repoChars _ owner _ ho hone
  · intro c hc
    simp only [List.head?_cons, Option.some.injEq] at hc
    subst hc
    decide
  · have hslash : (Atom.lit '/').accepts '/' = true := by decide
    simp only [Regex.run, hslash, if_true]
    exact plusGo_greedy repoChars _ name rest hn hnne hrest r hk

theorem digits_run {R : Type} (n : List Char) (caps : Caps)
    (k : List Char → Caps → Option R)
    (hn : ∀ c ∈ n, digitChars.accepts c = true) (hnne : n ≠ [])
    (r : R) (hk : k [] caps = some r) :
    (Regex.plus digitChars).run n caps k = some r := by
  rw [Regex.run]
  have h := plusGo_greedy digitChars (fun rest => k rest caps) n [] hn hnne
    (fun c hc => by simp at hc) r hk
  simpa using h

theorem issuePattern_matchHere_repo (owner name n : List Char)
    (ho : ∀ c ∈ owner, repoChars.accepts c = true) (hone : owner ≠ [])
    (hn : ∀ c ∈ name, repoChars.accepts c = true) (hnne : name ≠ [])
    (hd : ∀ c ∈ n, digitChars.accepts c = true) (hdne : n ≠ []) :
    issuePattern.matchHere (owner ++ '/' :: (name ++ '#' :: n))
      = some (owner ++ '/' :: (name ++ '#' :: n), [(2, n), (1, owner ++ '/' :: name)]) := by
  unfold Regex.matchHere issuePattern
  rw [run_seq]
  apply run_opt_some
  rw [run_group]
  apply repoExpr_run owner name ('#' :: n) [] _ ho hone hn hnne
  · intro c hc
    simp only [List.head?_cons, Option.some.injEq] at hc
    subst hc
    decide
  · rw [run_seq, run_atom_cons, if_pos (by decide), run_group]
    apply digits_run n _ _ hd hdne
    have e : owner ++ '/' :: (name ++ '#' :: n) = (owner ++ '/' :: name) ++ ('#' :: n) := by simp
    simp only [List.length_nil, Nat.sub_zero, List.take_length]
    rw [e, take_length_sub_append]

theorem str_pull_issues_none {R : Type} (rest : List Char) (caps : Caps)
    (k : List Char → Caps → Option R) :
    (Regex.str "pull".data).run ("issues".data ++ rest) caps k = none := by
  rfl

theorem urlPattern_matchHere_url (owner name kind n : List Char)
    (ho : ∀ c ∈ owner, repoChars.accepts c = true) (hone : owner ≠ [])
    (hn : ∀ c ∈ name, repoChars.accepts c = true) (hnne : name ≠ [])
    (hkind : kind = "pull".data ∨ kind = "issues".data)
    (hd : ∀ c ∈ n, digitChars.accepts c = true) (hdne : n ≠ []) :
    urlPattern.matchHere
        ("https://github".data ++ '.' :: ("com/".data
          ++ (owner ++ '/' :: (name ++ '/' :: (kind ++ '/' :: n)))))
      = some ("https://github".data ++ '.' :: ("com/".data
          ++ (owner ++ '/' :: (name ++ '/' :: (kind ++ '/' :: n)))),
          [(2, n), (1, owner ++ '/' :: name)]) := by
  unfold Regex.matchHere urlPattern
  rw [run_seq, run_str_append, run_seq, run_atom_cons, if_pos (by decide), run_seq,
    run_str_append, run_seq, run_group]
  apply repoExpr_run owner name ('/' :: (kind ++ '/' :: n)) [] _ ho hone hn hnne
  · intro c hc
    simp only [List.head?_cons, Option.some.injEq] at hc
    subst hc
    decide
  · rw [run_seq, run_atom_cons, if_pos (by decide), run_seq]
    have e : owner ++ '/' :: (name ++ '/' :: (kind ++ '/' :: n))
        = (owner ++ '/' :: name) ++ ('/' :: (kind ++ '/' :: n)) := by simp
    have hfinal : ∀ caps : Caps, (Regex.seq (Regex.atom (Atom.lit '/'))
        (Regex.group 2 (Regex.plus digitChars))).run ('/' :: n) caps
          (fun rest caps₁ => some
            (List.take (("https://github".data ++ '.' :: ("com/".data
                ++ (owner ++ '/' :: (name ++ '/' :: (kind ++ '/' :: n))))).length - rest.length)
              ("https://github".data ++ '.' :: ("com/".data
                ++ (owner ++ '/' :: (name ++ '/' :: (kind ++ '/' :: n))))), caps₁))
        = some ("https://github".data ++ '.' :: ("com/".data
            ++ (owner ++ '/' :: (name ++ '/' :: (kind ++ '/' :: n)))), (2, n) :: caps) := by
      intro caps
      rw [run_seq, run_atom_cons, if_pos (by decide), run_group]
      apply digits_run n _ _ hd hdne
      simp only [List.length_nil, Nat.sub_zero, List.take_length]
    rcases hkind with hk | hk
    · subst hk
      apply run_alt_left
      rw [run_str_append, hfinal, e, take_length_sub_append]
    · subst hk
      rw [run_alt_right _ _ _ _ _ (str_pull_issues_none _ _ _), run_str_append, hfinal, e,
        take_length_sub_append]

theorem splitChars_no_sep (sep : Char) (s : List Char) (h : sep ∉ s) :
    splitChars sep s = [s] := by
  induction s with
  | nil => rfl
  | cons c cs ih =>
    have hc : c ≠ sep := fun e => h (by rw [e]; exact List.mem_cons_self _ _)
    have hcs : sep ∉ cs := fun e => h (List.mem_cons_of_mem _ e)
    simp [splitChars, hc, ih hcs]

theorem findGithubRefs_single_line (message : String) (h : '\n' ∉ message.data) :
    findGithubRefs message = findGithubRefsLine [] message := by
  unfold findGithubRefs strings.Split
  rw [splitChars_no_sep _ _ h]
  rfl

theorem FindStringSubmatch_none (r : Regex) (s : String) (h : r.search s.data = none) :
    r.FindStringSubmatch s = none := by
  unfold Regex.FindStringSubmatch
  rw [h]

theorem FindStringSubmatch_some (r : Regex) (s : String) (whole : List Char) (caps : Caps)
    (h : r.search s.data = some (whole, caps)) :
    r.FindStringSubmatch s
      = some [String.mk whole, String.mk (caps.get 1), String.mk (caps.get 2)] := by
  unfold Regex.FindStringSubmatch
  rw [h]

theorem accepts_of_repo_chars (s : String)
    (h : ∀ c ∈ s.data, c.isAlphanum = true ∨ c = '_' ∨ c = '-') :
    ∀ c ∈ s.data, repoChars.accepts c = true :=
  fun c hc => (repoChars_accepts_iff c).2 (h c hc)

theorem accepts_of_digits (s : String) (h : ∀ c ∈ s.data, c.isDigit = true) :
    ∀ c ∈ s.data, digitChars.accepts c = true :=
  fun c hc => (digitChars_accepts_iff c).2 (h c hc)

theorem data_ne_nil (s : String) (h : s ≠ "") : s.data ≠ [] := by
  intro e
  apply h
  apply String.ext
  rw [e]

/-! ## Claims on `findGithubRefs` -/

/-- C6 (counterexample): `findGithubRefs "See #42 and owner/repo#7"` is not the
list of the two references `#42` and `owner/repo#7`; the second shorthand
reference of the line is not extracted at all. -/
theorem findGithubRefs_two_shorthands_not_both :
    findGithubRefs "See #42 and owner/repo#7"
        ≠ [{ repo := "", issue := "42" }, { repo := "owner/repo", issue := "7" }]
      ∧ ({ repo := "owner/repo", issue := "7" } : githubRef)
          ∉ findGithubRefs "See #42 and owner/repo#7" := by
  decide

/-- C6 (amended): `findGithubRefs "See #42 and owner/repo#7"` returns exactly
one reference, `{repo: "", issue: "42"}`, the leftmost shorthand reference of
the line; both references are extracted when they are written on two lines. -/
theorem findGithubRefs_first_shorthand_only :
    findGithubRefs "See #42 and owner/repo#7" = [{ repo := "", issue := "42" }]
      ∧ findGithubRefs "See #42 and\nowner/repo#7"
          = [{ repo := "", issue := "42" }, { repo := "owner/repo", issue := "7" }] := by
  decide

/-- C7: for non-empty `owner` and `name` over `[a-zA-Z0-9_-]`, `kind` one of
"pull" and "issues" and a non-empty digit string `n`, `findGithubRefs` on the
one-line message `https://github.com/<owner>/<name>/<kind>/<n>` returns exactly
the one reference `{repo: "<owner>/<name>", issue: n}`, and the shorthand
pattern has no match in such a line. -/
theorem findGithubRefs_url (owner name kind n : String)
    (ho : ∀ c ∈ owner.data, c.isAlphanum = true ∨ c = '_' ∨ c = '-') (hone : owner ≠ "")
    (hn : ∀ c ∈ name.data, c.isAlphanum = true ∨ c = '_' ∨ c = '-') (hnne : name ≠ "")
    (hkind : kind = "pull" ∨ kind = "issues")
    (hd : ∀ c ∈ n.data, c.isDigit = true) (hdne : n ≠ "") :
    issuePattern.FindStringSubmatch
        ("https://github.com/" ++ owner ++ "/" ++ name ++ "/" ++ kind ++ "/" ++ n) = none
      ∧ findGithubRefs
          ("https://github.com/" ++ owner ++ "/" ++ name ++ "/" ++ kind ++ "/" ++ n)
        = [{ repo := owner ++ "/" ++ name, issue := n }] := by
  have ho' := accepts_of_repo_chars owner ho
  have hn' := accepts_of_repo_chars name hn
  have hd' := accepts_of_digits n hd
  have hkind' : kind.data = "pull".data ∨ kind.data = "issues".data := by
    rcases hkind with h | h <;> simp [h]
  have hdata : ("https://github.com/" ++ owner ++ "/" ++ name ++ "/" ++ kind ++ "/" ++ n).data
      = "https://github".data ++ '.' :: ("com/".data
          ++ (owner.data ++ '/' :: (name.data ++ '/' :: (kind.data ++ '/' :: n.data)))) := by
    simp only [String.data_append, List.append_assoc]
    rfl
  have hmem : ∀ c ∈ ("https://github.com/" ++ owner ++ "/" ++ name ++ "/" ++ kind ++ "/" ++ n).data,
      c ≠ '#' ∧ c ≠ '\n' := by
    intro c hc
    rw [hdata] at hc
    generalize hA : "https://github".data = A at hc
    generalize hB : "com/".data = B at hc
    simp only [List.mem_append, List.mem_cons] at hc
    have hlit : ∀ l : List Char, (∀ x ∈ l, x ≠ '#' ∧ x ≠ '\n') → c ∈ l → c ≠ '#' ∧ c ≠ '\n' :=
      fun l hl hcl => hl c hcl
    have hrepo : repoChars.accepts c = true → c ≠ '#' ∧ c ≠ '\n' :=
      fun h => ⟨(repoChars_ne c h).1, (repoChars_ne c h).2.2.1⟩
    rcases hc with h | h | h | h | h | h | h | h | h | h
    · rw [← hA] at h
      refine hlit _ ?_ h
      decide
    · subst h; decide
    · rw [← hB] at h
      refine hlit _ ?_ h
      decide
    · exact hrepo (ho' c h)
    · subst h; decide
    · exact hrepo (hn' c h)
    · subst h; decide
    · rcases hkind' with hk | hk <;> rw [hk] at h <;> refine hlit _ ?_ h <;> decide
    · subst h; decide
    · exact hrepo (repoChars_of_digit c (hd c h))
  have hissue := FindStringSubmatch_none issuePattern _
    (issuePattern_search_none _ (fun h => (hmem _ h).1 rfl))
  refine ⟨hissue, ?_⟩
  rw [findGithubRefs_single_line _ (fun h => (hmem _ h).2 rfl)]
  unfold findGithubRefsLine
  rw [hissue,
    FindStringSubmatch_some _ _ _ _ (by
      rw [hdata]
      exact search_of_matchHere _ _ _
        (urlPattern_matchHere_url owner.data name.data kind.data n.data ho' (data_ne_nil _ hone)
          hn' (data_ne_nil _ hnne) hkind' hd' (data_ne_nil _ hdne)))]
  simp only [List.nil_append, List.getD_cons_succ, List.getD_cons_zero, List.cons.injEq,
    and_true, githubRef.mk.injEq]
  constructor
  · apply String.ext
    show owner.data ++ '/' :: name.data = _
    simp only [String.data_append, List.append_assoc]
    rfl
  · rfl

/-- C7 (witness): `https://github.com/acme/widgets/issues/9` yields
`[{acme/widgets, 9}]`. -/
theorem findGithubRefs_url_witness :
    issuePattern.FindStringSubmatch "https://github.com/acme/widgets/issues/9" = none
      ∧ findGithubRefs "https://github.com/acme/widgets/issues/9"
        = [{ repo := "acme/widgets", issue := "9" }] :=
  findGithubRefs_url "acme" "widgets" "issues" "9" (by decide) (by decide) (by decide)
    (by decide) (by decide) (by decide) (by decide)

/-- C8 (counterexample): for the line `acme/my.repo#5`, whose owner and name
are made of word characters, dots and hyphens, the reference
`{repo: "acme/my.repo", issue: "5"}` is not returned; the result is the single
reference `{repo: "", issue: "5"}`. -/
theorem findGithubRefs_dotted_repo_not_captured :
    ({ repo := "acme/my.repo", issue := "5" } : githubRef) ∉ findGithubRefs "acme/my.repo#5"
      ∧ findGithubRefs "acme/my.repo#5" = [{ repo := "", issue := "5" }] := by
  decide

/-- C8 (amended): for non-empty `owner` and `name` over `[a-zA-Z0-9_-]`
(letters, digits, underscore and hyphen, no dot) and a non-empty digit string
`n`, `findGithubRefs` on the one-line message `<owner>/<name>#<n>` returns
exactly the one reference `{repo: "<owner>/<name>", issue: n}`. -/
theorem findGithubRefs_shorthand_repo (owner name n : String)
    (ho : ∀ c ∈ owner.data, c.isAlphanum = true ∨ c = '_' ∨ c = '-') (hone : owner ≠ "")
    (hn : ∀ c ∈ name.data, c.isAlphanum = true ∨ c = '_' ∨ c = '-') (hnne : name ≠ "")
    (hd : ∀ c ∈ n.data, c.isDigit = true) (hdne : n ≠ "") :
    findGithubRefs (owner ++ "/" ++ name ++ "#" ++ n)
      = [{ repo := owner ++ "/" ++ name, issue := n }] := by
  have ho' := accepts_of_repo_chars owner ho
  have hn' := accepts_of_repo_chars name hn
  have hd' := accepts_of_digits n hd
  have hdata : (owner ++ "/" ++ name ++ "#" ++ n).data
      = owner.data ++ '/' :: (name.data ++ '#' :: n.data) := by
    simp only [String.data_append, List.append_assoc]
    rfl
  have hmem : ∀ c ∈ (owner ++ "/" ++ name ++ "#" ++ n).data, c ≠ ':' ∧ c ≠ '\n' := by
    intro c hc
    rw [hdata] at hc
    simp only [List.mem_append, List.mem_cons] at hc
    have hrepo : repoChars.accepts c = true → c ≠ ':' ∧ c ≠ '\n' :=
      fun h => ⟨(repoChars_ne c h).2.1, (repoChars_ne c h).2.2.1⟩
    rcases hc with h | h | h | h | h
    · exact hrepo (ho' c h)
    · subst h; decide
    · exact hrepo (hn' c h)
    · subst h; decide
    · exact hrepo (repoChars_of_digit c (hd c h))
  rw [findGithubRefs_single_line _ (fun h => (hmem _ h).2 rfl)]
  unfold findGithubRefsLine
  rw [FindStringSubmatch_none urlPattern _
      (urlPattern_search_none _ (fun h => (hmem _ h).1 rfl)),
    FindStringSubmatch_some issuePattern _ _ _ (by
      rw [hdata]
      exact search_of_matchHere _ _ _
        (issuePattern_matchHere_repo owner.data name.data n.data ho' (data_ne_nil _ hone)
          hn' (data_ne_nil _ hnne) hd' (data_ne_nil _ hdne)))]
  simp only [List.nil_append, List.getD_cons_succ, List.getD_cons_zero, List.cons.injEq,
    and_true, githubRef.mk.injEq]
  constructor
  · apply String.ext
    show owner.data ++ '/' :: name.data = _
    simp only [String.data_append, List.append_assoc]
    rfl
  · rfl

/-- C8 (witness): `acme/my-repo#5` yields `[{acme/my-repo, 5}]`. -/
theorem findGithubRefs_shorthand_repo_witness :
    findGithubRefs "acme/my-repo#5" = [{ repo := "acme/my-repo", issue := "5" }] :=
  findGithubRefs_shorthand_repo "acme" "my-repo" "5" (by decide) (by decide) (by decide)
    (by decide) (by decide) (by decide)

/-! ## Claims on `subtractRefs` -/

theorem subtractRefs_foldl (old acc cur : List githubRef) :
    cur.foldl
        (fun newRefs current =>
          if old.any (fun o => decide (current = o)) then newRefs else newRefs ++ [current])
        acc
      = acc ++ cur.filter (fun r => decide (r ∉ old)) := by
  induction cur generalizing acc with
  | nil => simp
  | cons r rs ih =>
    rw [List.foldl_cons, ih]
    by_cases h : r ∈ old
    · have hany : old.any (fun o => decide (r = o)) = true := by
        rw [List.any_eq_true]
        exact ⟨r, h, by simp⟩
      simp [hany, List.filter_cons, h]
    · have hany : old.any (fun o => decide (r = o)) = false := by
        rw [List.any_eq_false]
        intro o ho
        have : r ≠ o := fun e => h (e ▸ ho)
        simp [this]
      simp [hany, List.filter_cons, h]

theorem subtractRefs_eq_filter (current previous : List githubRef) :
    subtractRefs current previous = current.filter (fun r => decide (r ∉ previous)) := by
  unfold subtractRefs
  rw [subtractRefs_foldl]
  rfl

/-- C9: `subtractRefs current previous` is exactly the sub-list of `current`,
in its original order, of the elements not structurally equal to any element of
`previous`; membership is "in `current` and not in `previous`"; hence
`subtractRefs [A, B] [A] = [B]` (for `B ≠ A`), `subtractRefs x x = []` and
`subtractRefs x [] = x`. -/
theorem subtractRefs_spec (current previous : List githubRef) :
    subtractRefs current previous = current.filter (fun r => decide (r ∉ previous))
      ∧ (∀ r, r ∈ subtractRefs current previous ↔ (r ∈ current ∧ r ∉ previous))
      ∧ (∀ A B : githubRef, B ≠ A → subtractRefs [A, B] [A] = [B])
      ∧ subtractRefs current current = []
      ∧ subtractRefs current [] = current := by
  refine ⟨subtractRefs_eq_filter _ _, ?_, ?_, ?_, ?_⟩
  · intro r
    rw [subtractRefs_eq_filter]
    simp [List.mem_filter]
  · intro A B hAB
    rw [subtractRefs_eq_filter]
    simp [List.filter_cons, hAB]
  · rw [subtractRefs_eq_filter, List.filter_eq_nil_iff]
    intro r hr
    simp [hr]
  · rw [subtractRefs_eq_filter]
    simp

/-! ## Claims on project eligibility and on `TriggeredByNewPatch` -/

theorem enabledProject_iff (c : Client) (project : String) :
    c.enabledProject project = true ↔ project ∈ c.projects := by
  unfold Client.enabledProject
  rw [List.any_eq_true]
  constructor
  · rintro ⟨p, hp, he⟩
    have : p = project := by simpa using he
    rw [← this]
    exact hp
  · intro h
    exact ⟨project, h, by simp⟩

theorem jenkinsProject_no_slash (project : String) (h : '/' ∉ project.data) :
    jenkinsProject project = project := by
  unfold jenkinsProject strings.Split
  rw [splitChars_no_sep _ _ h]
  rfl

/-- C10 (counterexample): with the allow-list `["storj"]` the project
"storj/storj" has its last path segment "storj" in the list and is not enabled;
with the allow-list `["storj/storj"]` it is enabled although its last path
segment is not in the list. -/
theorem enabledProject_not_last_segment :
    ¬ (clientStorj.enabledProject "storj/storj" = true
        ↔ jenkinsProject "storj/storj" ∈ clientStorj.projects)
      ∧ ¬ (clientStorjFull.enabledProject "storj/storj" = true
        ↔ jenkinsProject "storj/storj" ∈ clientStorjFull.projects) := by
  decide

/-- C10 (amended): `enabledProject project` is true if and only if `project`
itself, the whole string, is an element of the configured list; this is the
last path segment exactly when `project` contains no "/". -/
theorem enabledProject_spec (c : Client) (project : String) :
    (c.enabledProject project = true ↔ project ∈ c.projects)
      ∧ ('/' ∉ project.data →
          (c.enabledProject project = true ↔ jenkinsProject project ∈ c.projects)) := by
  refine ⟨enabledProject_iff c project, ?_⟩
  intro h
  rw [jenkinsProject_no_slash project h]
  exact enabledProject_iff c project

theorem not_verify_and_premerge (c : Change) :
    ¬ (verifyCondition c = true ∧ premergeCondition c = true) := by
  unfold verifyCondition premergeCondition
  rintro ⟨hv, hp⟩
  split_ifs at hv hp with h₀ h₁
  omega

/-- C2: for an enabled project, when both change fetches return the same change
`ch` with `LabelMax "Verified" = 0` and the trigger call succeeds,
`TriggeredByNewPatch` returns nil (it does not panic) and its boundary calls are: the fetch, one
trigger call for job `jenkinsProject project ++ "-gerrit-verify"` with
parameters `GERRIT_REF = commit`, and the second fetch; no call is made for the
premerge job. Moreover `verifyCondition` and `premergeCondition` are never both
true of one change. -/
theorem TriggeredByNewPatch_verify_only {σ : Type} (b : Boundary σ) (c : Client)
    (project change commit : String) (w : World σ) (ch : Change) (s₁ s₂ s₃ : σ)
    (hen : c.enabledProject project = true)
    (hq₁ : gerrit.QueryChange b change w.state = (.returned (.ok ch), s₁))
    (hv : ch.LabelMax "Verified" = 0)
    (ht : b.jenkinsHTTPCall
      (triggerUrl (jenkinsProject project ++ "-gerrit-verify") [("GERRIT_REF", commit)]) s₁
        = (none, s₂))
    (hq₂ : gerrit.QueryChange b change s₂ = (.returned (.ok ch), s₃)) :
    c.TriggeredByNewPatch b project change commit w
        = (.returned none,
            { state := s₃,
              calls := w.calls ++
                [Call.QueryChange change,
                 Call.TriggerJob (jenkinsProject project ++ "-gerrit-verify")
                   [("GERRIT_REF", commit)],
                 Call.QueryChange change] })
      ∧ ∀ c₁ : Change, ¬ (verifyCondition c₁ = true ∧ premergeCondition c₁ = true) := by
  refine ⟨?_, not_verify_and_premerge⟩
  have hvc : verifyCondition ch = true := by simp [verifyCondition, hv]
  have hpc : premergeCondition ch = false := by simp [premergeCondition, hv]
  simp [Client.TriggeredByNewPatch, hen, Client.triggerJobIfRequired, QueryChange,
    Client.TriggerJob, hq₁, hvc, ht, hq₂, hpc, errs.Combine]

/-- C2 (witness): the client with allow-list `["storj"]`, project "storj", a
boundary whose fetches return a change without votes and whose trigger calls
succeed. -/
theorem TriggeredByNewPatch_verify_only_witness :
    clientStorj.TriggeredByNewPatch boundaryAllOk "storj" "I6d20b5a8" "9288388" ⟨0, []⟩
        = (.returned none,
            { state := 3,
              calls := [Call.QueryChange "I6d20b5a8",
                 Call.TriggerJob "storj-gerrit-verify" [("GERRIT_REF", "9288388")],
                 Call.QueryChange "I6d20b5a8"] }) :=
  (TriggeredByNewPatch_verify_only boundaryAllOk clientStorj "storj" "I6d20b5a8" "9288388"
    ⟨0, []⟩ changeNoVotes 1 2 3 (by decide) rfl (by decide) rfl rfl).1

/-! ## Claims on the triggers: eligibility, comments, partial failure -/

theorem containsChars_iff (substr s : List Char) :
    containsChars substr s = true ↔ ∃ p t, s = p ++ substr ++ t := by
  induction s with
  | nil =>
    simp only [containsChars, List.isEmpty_iff]
    constructor
    · intro h
      exact ⟨[], [], by simp [h]⟩
    · rintro ⟨p, t, h⟩
      have h₁ := congrArg List.length h
      simp only [List.length_nil, List.length_append] at h₁
      exact List.length_eq_zero.1 (by omega)
  | cons c cs ih =>
    simp only [containsChars, Bool.or_eq_true, ih, List.isPrefixOf_iff_prefix]
    constructor
    · rintro (⟨t, ht⟩ | ⟨p, t, h⟩)
      · exact ⟨[], t, by simpa using ht.symm⟩
      · exact ⟨c :: p, t, by simp [h]⟩
    · rintro ⟨p, t, h⟩
      cases p with
      | nil => exact Or.inl ⟨t, by simpa using h.symm⟩
      | cons d p =>
        right
        simp only [List.cons_append, List.cons.injEq] at h
        exact ⟨p, t, h.2⟩

/-- C11: for a project that `enabledProject` rejects, each of
`TriggeredByNewPatch`, `TriggeredByComment` and `TriggeredBySuccessVerify`
returns nil and leaves the outside world and the trace of boundary calls
unchanged: no change fetch and no trigger call is made. -/
theorem Triggered_not_enabled {σ : Type} (b : Boundary σ) (c : Client)
    (project change commit comment : String) (w : World σ)
    (h : c.enabledProject project = false) :
    c.TriggeredByNewPatch b project change commit w = (.returned none, w)
      ∧ c.TriggeredByComment b project change commit comment w = (.returned none, w)
      ∧ c.TriggeredBySuccessVerify b project change commit comment w = (.returned none, w) := by
  simp [Client.TriggeredByNewPatch, Client.TriggeredByComment,
    Client.TriggeredBySuccessVerify, h]

/-- C11 (witness): the project "storj/storj" is not in the allow-list
`["storj"]`; a comment that asks for a build triggers nothing. -/
theorem Triggered_not_enabled_witness :
    clientStorj.enabledProject "storj/storj" = false
      ∧ clientStorj.TriggeredByNewPatch boundaryReady "storj/storj" "I6d20b5a8" "9288388"
          ⟨0, []⟩ = (.returned none, ⟨0, []⟩)
      ∧ clientStorj.TriggeredByComment boundaryReady "storj/storj" "I6d20b5a8" "9288388"
          "run jenkins verify" ⟨0, []⟩ = (.returned none, ⟨0, []⟩)
      ∧ clientStorj.TriggeredBySuccessVerify boundaryReady "storj/storj" "I6d20b5a8" "9288388"
          "run jenkins verify" ⟨0, []⟩ = (.returned none, ⟨0, []⟩) :=
  ⟨by decide,
    Triggered_not_enabled boundaryReady clientStorj "storj/storj" "I6d20b5a8" "9288388"
      "run jenkins verify" ⟨0, []⟩ (by decide)⟩

theorem triggerJobIfRequired_always {σ : Type} (b : Boundary σ) (c : Client)
    (change commit job : String) (w : World σ) (ch : Change) (s₁ s₂ : σ)
    (hq : gerrit.QueryChange b change w.state = (.returned (.ok ch), s₁))
    (ht : b.jenkinsHTTPCall (triggerUrl job [("GERRIT_REF", commit)]) s₁ = (none, s₂)) :
    c.triggerJobIfRequired b change commit job (fun _ => true) w
      = (.returned none,
          { state := s₂,
            calls := w.calls ++
              [Call.QueryChange change, Call.TriggerJob job [("GERRIT_REF", commit)]] }) := by
  simp [Client.triggerJobIfRequired, QueryChange, Client.TriggerJob, hq, ht]

theorem gerrit_job_verify (project : String) :
    jenkinsProject project ++ "-gerrit-" ++ "verify" = jenkinsProject project ++ "-gerrit-verify" := by
  rw [String.append_assoc]
  rfl

theorem gerrit_job_premerge (project : String) :
    jenkinsProject project ++ "-gerrit-" ++ "premerge"
      = jenkinsProject project ++ "-gerrit-premerge" := by
  rw [String.append_assoc]
  rfl

/-- C12: for an enabled project, when the change fetch succeeds (whatever the
fetched change is) and the trigger call of the chosen job succeeds,
`TriggeredByComment` returns nil after exactly one fetch and one trigger call
with parameters `GERRIT_REF = commit`: for the verify job when the comment
contains "run jenkins verify"; otherwise for the premerge job when it contains
"run jenkins premerge"; otherwise for the verify job when it contains
"run jenkins"; and when it contains none of them it returns nil with no fetch
and no trigger call. -/
theorem TriggeredByComment_first_match {σ : Type} (b : Boundary σ) (c : Client)
    (project change commit comment : String) (w : World σ) (ch : Change) (s₁ s₂ : σ)
    (hen : c.enabledProject project = true)
    (hq : gerrit.QueryChange b change w.state = (.returned (.ok ch), s₁)) :
    (strings.Contains comment "run jenkins verify" = true →
      b.jenkinsHTTPCall
        (triggerUrl (jenkinsProject project ++ "-gerrit-verify") [("GERRIT_REF", commit)]) s₁
          = (none, s₂) →
      c.TriggeredByComment b project change commit comment w
        = (.returned none,
            { state := s₂,
              calls := w.calls ++
                [Call.QueryChange change,
                 Call.TriggerJob (jenkinsProject project ++ "-gerrit-verify")
                   [("GERRIT_REF", commit)]] }))
    ∧ (strings.Contains comment "run jenkins verify" = false →
        strings.Contains comment "run jenkins premerge" = true →
        b.jenkinsHTTPCall
          (triggerUrl (jenkinsProject project ++ "-gerrit-premerge") [("GERRIT_REF", commit)]) s₁
            = (none, s₂) →
        c.TriggeredByComment b project change commit comment w
          = (.returned none,
              { state := s₂,
                calls := w.calls ++
                  [Call.QueryChange change,
                   Call.TriggerJob (jenkinsProject project ++ "-gerrit-premerge")
                     [("GERRIT_REF", commit)]] }))
    ∧ (strings.Contains comment "run jenkins verify" = false →
        strings.Contains comment "run jenkins premerge" = false →
        strings.Contains comment "run jenkins" = true →
        b.jenkinsHTTPCall
          (triggerUrl (jenkinsProject project ++ "-gerrit-verify") [("GERRIT_REF", commit)]) s₁
            = (none, s₂) →
        c.TriggeredByComment b project change commit comment w
          = (.returned none,
              { state := s₂,
                calls := w.calls ++
                  [Call.QueryChange change,
                   Call.TriggerJob (jenkinsProject project ++ "-gerrit-verify")
                     [("GERRIT_REF", commit)]] }))
    ∧ (strings.Contains comment "run jenkins verify" = false →
        strings.Contains comment "run jenkins premerge" = false →
        strings.Contains comment "run jenkins" = false →
        c.TriggeredByComment b project change commit comment w = (.returned none, w)) := by
  refine ⟨?_, ?_, ?_, ?_⟩
  · intro hv ht
    rw [← gerrit_job_verify] at ht ⊢
    simp only [Client.TriggeredByComment, hen, commentBuildType, hv, if_true,
      Bool.not_true, Bool.false_eq_true, if_false]
    exact triggerJobIfRequired_always b c change commit _ w ch s₁ s₂ hq ht
  · intro hv hp ht
    rw [← gerrit_job_premerge] at ht ⊢
    simp only [Client.TriggeredByComment, hen, commentBuildType, hv, hp, if_true,
      Bool.not_true, Bool.false_eq_true, if_false]
    exact triggerJobIfRequired_always b c change commit _ w ch s₁ s₂ hq ht
  · intro hv hp hg ht
    rw [← gerrit_job_verify] at ht ⊢
    simp only [Client.TriggeredByComment, hen, commentBuildType, hv, hp, hg, if_true,
      Bool.not_true, Bool.false_eq_true, if_false]
    exact triggerJobIfRequired_always b c change commit _ w ch s₁ s₂ hq ht
  · intro hv hp hg
    simp only [Client.TriggeredByComment, hen, commentBuildType, hv, hp, hg,
      Bool.not_true, Bool.false_eq_true, if_false]

/-- C12 (witness): the comment "please run jenkins verify now" triggers exactly
the verify job, on a change that is ready for premerge. -/
theorem TriggeredByComment_first_match_witness :
    clientStorj.TriggeredByComment boundaryReady "storj" "I6d20b5a8" "9288388"
        "please run jenkins verify now" ⟨0, []⟩
      = (.returned none,
          { state := 2,
            calls := [Call.QueryChange "I6d20b5a8",
                      Call.TriggerJob "storj-gerrit-verify" [("GERRIT_REF", "9288388")]] }) :=
  (TriggeredByComment_first_match boundaryReady clientStorj "storj" "I6d20b5a8" "9288388"
    "please run jenkins verify now" ⟨0, []⟩ changePremergeReady 1 2 (by decide) rfl).1
    (by decide) rfl

/-- One `triggerJobIfRequired` step always makes its change fetch first, and at
most the one trigger call after it. -/
theorem triggerJobIfRequired_calls {σ : Type} (b : Boundary σ) (c : Client)
    (change commit job : String) (condition : Change → Bool) (w : World σ) :
    (c.triggerJobIfRequired b change commit job condition w).2.calls
        = w.calls ++ [Call.QueryChange change]
      ∨ (c.triggerJobIfRequired b change commit job condition w).2.calls
        = w.calls ++ [Call.QueryChange change, Call.TriggerJob job [("GERRIT_REF", commit)]] := by
  unfold Client.triggerJobIfRequired QueryChange Client.TriggerJob
  cases hq : (gerrit.QueryChange b change w.state).1 with
  | panicked reason => simp [hq]
  | returned answer =>
    cases answer with
    | error err => simp [hq]
    | ok ch =>
      by_cases hc : condition ch = true
      · right
        cases ht : (b.jenkinsHTTPCall (triggerUrl job [("GERRIT_REF", commit)])
            (gerrit.QueryChange b change w.state).2).1 with
        | none => simp [hq, hc, ht]
        | some err => simp [hq, hc, ht]
      · left
        simp [hq, hc]

/-- A panic of the change fetch is the outcome of the step, after that one fetch. -/
theorem triggerJobIfRequired_panics {σ : Type} (b : Boundary σ) (c : Client)
    (change commit job : String) (condition : Change → Bool) (w : World σ)
    (reason : String) (s₁ : σ)
    (hq : gerrit.QueryChange b change w.state = (.panicked reason, s₁)) :
    c.triggerJobIfRequired b change commit job condition w
      = (.panicked reason, { state := s₁, calls := w.calls ++ [Call.QueryChange change] }) := by
  simp [Client.triggerJobIfRequired, QueryChange, hq]

/-- When the change fetch of the verify step panics, `TriggeredByNewPatch`
panics after that one fetch: the premerge step is not attempted. -/
theorem TriggeredByNewPatch_panics_of_fetch {σ : Type} (b : Boundary σ) (c : Client)
    (project change commit : String) (w : World σ) (reason : String) (s₁ : σ)
    (hen : c.enabledProject project = true)
    (hq : gerrit.QueryChange b change w.state = (.panicked reason, s₁)) :
    c.TriggeredByNewPatch b project change commit w
      = (.panicked reason, { state := s₁, calls := w.calls ++ [Call.QueryChange change] }) := by
  simp [Client.TriggeredByNewPatch, hen,
    triggerJobIfRequired_panics b c change commit _ _ w reason s₁ hq]

theorem Combine_two_eq_none (e₁ e₂ : Option Err) :
    errs.Combine [e₁, e₂] = none ↔ (e₁ = none ∧ e₂ = none) := by
  cases e₁ <;> cases e₂ <;> simp [errs.Combine]

theorem Combine_two_keeps (e₁ e₂ : Option Err) (e : Err) (h : e₁ = some e ∨ e₂ = some e) :
    ∃ e', errs.Combine [e₁, e₂] = some e' ∧ ∀ m ∈ e.msgs, m ∈ e'.msgs := by
  cases e₁ with
  | none =>
    cases e₂ with
    | none => simp at h
    | some b =>
      have hb : b = e := by simpa using h
      exact ⟨e, by simp [errs.Combine, hb], fun m hm => hm⟩
  | some a =>
    cases e₂ with
    | none =>
      have ha : a = e := by simpa using h
      exact ⟨e, by simp [errs.Combine, ha], fun m hm => hm⟩
    | some b =>
      refine ⟨⟨a.msgs ++ b.msgs⟩, by simp [errs.Combine], ?_⟩
      intro m hm
      simp only [Option.some.injEq] at h
      rcases h with h | h
      · rw [← h] at hm
        exact List.mem_append_left _ hm
      · rw [← h] at hm
        exact List.mem_append_right _ hm

/-- When both steps return, `TriggeredByNewPatch` has performed both: its trace
is the fetch of the verify step, at most the verify trigger call, the fetch of
the premerge step (whatever the verify step returned), and at most the premerge
trigger call; its result combines the two results, it is nil if and only if
both are nil, and the messages of either error are part of the error returned. -/
theorem TriggeredByNewPatch_both_steps_of_returned {σ : Type} (b : Boundary σ) (c : Client)
    (project change commit : String) (w w₁ w₂ : World σ) (err₁ err₂ : Option Err)
    (hen : c.enabledProject project = true)
    (h₁ : c.triggerJobIfRequired b change commit
      (jenkinsProject project ++ "-gerrit-verify") verifyCondition w = (.returned err₁, w₁))
    (h₂ : c.triggerJobIfRequired b change commit
      (jenkinsProject project ++ "-gerrit-premerge") premergeCondition w₁
        = (.returned err₂, w₂)) :
    c.TriggeredByNewPatch b project change commit w
        = (.returned (errs.Combine [err₁, err₂]), w₂)
      ∧ (∃ t₁ t₂, w₂.calls = w.calls ++ (Call.QueryChange change :: t₁)
            ++ (Call.QueryChange change :: t₂)
          ∧ (t₁ = [] ∨ t₁ = [Call.TriggerJob (jenkinsProject project ++ "-gerrit-verify")
              [("GERRIT_REF", commit)]])
          ∧ (t₂ = [] ∨ t₂ = [Call.TriggerJob (jenkinsProject project ++ "-gerrit-premerge")
              [("GERRIT_REF", commit)]]))
      ∧ (errs.Combine [err₁, err₂] = none ↔ (err₁ = none ∧ err₂ = none))
      ∧ (∀ e, (err₁ = some e ∨ err₂ = some e) →
          ∃ e', errs.Combine [err₁, err₂] = some e' ∧ ∀ m ∈ e.msgs, m ∈ e'.msgs) := by
  refine ⟨?_, ?_, Combine_two_eq_none _ _, fun e he => Combine_two_keeps _ _ e he⟩
  · simp [Client.TriggeredByNewPatch, hen, h₁, h₂]
  · have k₁ := triggerJobIfRequired_calls b c change commit
      (jenkinsProject project ++ "-gerrit-verify") verifyCondition w
    have k₂ := triggerJobIfRequired_calls b c change commit
      (jenkinsProject project ++ "-gerrit-premerge") premergeCondition w₁
    rw [h₁] at k₁
    rw [h₂] at k₂
    simp only at k₁ k₂
    rcases k₁ with k₁ | k₁ <;> rcases k₂ with k₂ | k₂
    · exact ⟨[], [], by simp [k₂, k₁], Or.inl rfl, Or.inl rfl⟩
    · exact ⟨[], _, by simp [k₂, k₁], Or.inl rfl, Or.inr rfl⟩
    · exact ⟨_, [], by simp [k₂, k₁], Or.inr rfl, Or.inl rfl⟩
    · exact ⟨_, _, by simp [k₂, k₁], Or.inr rfl, Or.inr rfl⟩

/-- An instance of the lemma above: the fetch of the verify step is answered
with status 500, the premerge step is still performed and triggers the premerge
job, and the error of the verify step is returned. -/
theorem TriggeredByNewPatch_first_fetch_error :
    clientStorj.TriggeredByNewPatch boundaryFirstFetchFails "storj" "I6d20b5a8" "9288388"
        ⟨0, []⟩
      = (.returned (some ⟨["couldn't get gerrit message"]⟩),
          { state := 3,
            calls := [Call.QueryChange "I6d20b5a8", Call.QueryChange "I6d20b5a8",
              Call.TriggerJob "storj-gerrit-premerge" [("GERRIT_REF", "9288388")]] }) :=
  (TriggeredByNewPatch_both_steps_of_returned boundaryFirstFetchFails clientStorj "storj"
    "I6d20b5a8" "9288388" ⟨0, []⟩ _ _ _ _ (by decide) rfl rfl).1

/-- C14 (the code at the failing input): for the enabled project "storj", when
the review system answers the change fetch of the verify step with status 200
and an empty body, `gerrit.QueryChange` panics at `body[5:]` in
`gerritHTTPCall`, and `TriggeredByNewPatch` panics after that single fetch: the
change fetch of the premerge step is never performed and no error value is
returned. -/
theorem TriggeredByNewPatch_fetch_panics :
    clientStorj.enabledProject "storj" = true
      ∧ boundaryEmptyBody.GET (gerritBaseURL ++ "/changes/" ++ "I6d20b5a8" ++ "/?o=labels") 0
        = ((none, .ok ⟨200, .ok []⟩), 1)
      ∧ gerrit.QueryChange boundaryEmptyBody "I6d20b5a8" 0
        = (.panicked "slice bounds out of range", 1)
      ∧ clientStorj.TriggeredByNewPatch boundaryEmptyBody "storj" "I6d20b5a8" "9288388"
          ⟨0, []⟩
        = (.panicked "slice bounds out of range",
            { state := 1, calls := [Call.QueryChange "I6d20b5a8"] }) :=
  ⟨by decide, rfl, rfl,
    TriggeredByNewPatch_panics_of_fetch boundaryEmptyBody clientStorj "storj" "I6d20b5a8"
      "9288388" ⟨0, []⟩ "slice bounds out of range" 1 (by decide) rfl⟩

/-! ## Claims on `AddComment` and on duplicates -/

theorem findGithubRefs_empty : findGithubRefs "" = [] := by
  decide

theorem subtractRefs_nil_right (current : List githubRef) : subtractRefs current [] = current := by
  rw [subtractRefs_eq_filter]
  simp

/-- The notification loop: the calls made are the planned ones, in order, up to
and including the first one that fails. -/
theorem notifyLoop_spec {σ : Type} (b : NotifyBoundary σ) (project changeUrl : String)
    (refs : List githubRef) :
    ∀ w : NotifyWorld σ, ∃ made : List PostCall,
      (notifyLoop b project changeUrl refs w).2.posts = w.posts ++ made
        ∧ made.map (fun p => (p.orgRepo, p.issue, p.message))
            = (refs.map (fun r => (if r.repo = "" then project else r.repo, r.issue,
                "Change " ++ changeUrl ++ " mentions this issue."))).take made.length
        ∧ (∀ p ∈ made.dropLast, p.result = none)
        ∧ ((notifyLoop b project changeUrl refs w).1 = none ↔ ∀ p ∈ made, p.result = none)
        ∧ ((notifyLoop b project changeUrl refs w).1 = none → made.length = refs.length)
        ∧ (∀ err, (notifyLoop b project changeUrl refs w).1 = some err →
            ∃ p, made.getLast? = some p ∧ p.result = some err) := by
  induction refs with
  | nil =>
    intro w
    exact ⟨[], by simp [notifyLoop]⟩
  | cons ref rest ih =>
    intro w
    have hrepo : (if ref.repo = "" then { ref with repo := project } else ref).repo
        = if ref.repo = "" then project else ref.repo := by
      split_ifs <;> rfl
    have hissue : (if ref.repo = "" then { ref with repo := project } else ref).issue
        = ref.issue := by
      split_ifs <;> rfl
    cases hpost : (b.postComment (if ref.repo = "" then project else ref.repo) ref.issue
        ("Change " ++ changeUrl ++ " mentions this issue.") w.state).1 with
    | some err =>
      refine ⟨[⟨if ref.repo = "" then project else ref.repo, ref.issue,
        "Change " ++ changeUrl ++ " mentions this issue.", some err⟩], ?_⟩
      simp [notifyLoop, hrepo, hissue, hpost]
    | none =>
      obtain ⟨made, h₁, h₂, h₃, h₄, h₅, h₆⟩ := ih
        ⟨(b.postComment (if ref.repo = "" then project else ref.repo) ref.issue
            ("Change " ++ changeUrl ++ " mentions this issue.") w.state).2,
          w.posts ++ [⟨if ref.repo = "" then project else ref.repo, ref.issue,
            "Change " ++ changeUrl ++ " mentions this issue.", none⟩]⟩
      refine ⟨⟨if ref.repo = "" then project else ref.repo, ref.issue,
        "Change " ++ changeUrl ++ " mentions this issue.", none⟩ :: made, ?_⟩
      simp only [notifyLoop, hrepo, hissue, hpost]
      refine ⟨by rw [h₁]; simp, by simp [h₂], ?_, ?_, ?_, ?_⟩
      · intro p hp
        cases made with
        | nil => simp at hp
        | cons q qs =>
          rw [List.dropLast_cons₂, List.mem_cons] at hp
          rcases hp with hp | hp
          · rw [hp]
          · exact h₃ p hp
      · rw [h₄]
        simp
      · intro h
        simp [h₅ h]
      · intro err h
        obtain ⟨p, hp, hres⟩ := h₆ err h
        refine ⟨p, ?_, hres⟩
        cases made with
        | nil => simp at hp
        | cons q qs => rw [List.getLast?_cons_cons, hp]

/-- C13: when the commit-message fetch succeeds with message `m`, the
`postComment` calls of `AddComment` are, in order, the calls planned for the
elements of `findGithubRefs m` (repo of the reference, or the project when it is
empty; the issue of the reference; the text
"Change <changeUrl> mentions this issue."), up to and including the first call
that returns an error: every call before the last one made succeeded, the
result is nil if and only if every call made succeeded, in which case all
planned calls were made, and a non-nil result is the error of the last call
made. -/
theorem AddComment_spec {σ : Type} (b : NotifyBoundary σ)
    (project change commit changeUrl m : String) (w : NotifyWorld σ) (s₁ : σ)
    (hfetch : b.GetCommitMessage change commit w.state = (.ok m, s₁)) :
    ∃ made : List PostCall,
      (AddComment b project change commit changeUrl w).2.posts = w.posts ++ made
        ∧ made.map (fun p => (p.orgRepo, p.issue, p.message))
            = ((findGithubRefs m).map
                (fun r => (if r.repo = "" then project else r.repo, r.issue,
                  "Change " ++ changeUrl ++ " mentions this issue."))).take made.length
        ∧ (∀ p ∈ made.dropLast, p.result = none)
        ∧ ((AddComment b project change commit changeUrl w).1 = none
            ↔ ∀ p ∈ made, p.result = none)
        ∧ ((AddComment b project change commit changeUrl w).1 = none
            → made.length = (findGithubRefs m).length)
        ∧ (∀ err, (AddComment b project change commit changeUrl w).1 = some err →
            ∃ p, made.getLast? = some p ∧ p.result = some err) := by
  have h : AddComment b project change commit changeUrl w
      = notifyLoop b project changeUrl (findGithubRefs m) ⟨s₁, w.posts⟩ := by
    simp only [AddComment, hfetch, findGithubRefs_empty, subtractRefs_nil_right]
  rw [h]
  exact notifyLoop_spec b project changeUrl (findGithubRefs m) ⟨s₁, w.posts⟩

/-- C13 (witness): three references, the second post fails: two calls are
made, the first for the project itself, and the error of the second is
returned. -/
theorem AddComment_spec_witness :
    AddComment notifySecondFails "storj/storj" "I6d20b5a8" "9288388" "https://review/1"
        ⟨0, []⟩
      = (some ⟨["POST url is failed"]⟩,
          { state := 3,
            posts := [⟨"storj/storj", "1", "Change https://review/1 mentions this issue.", none⟩,
                      ⟨"acme/widgets", "2", "Change https://review/1 mentions this issue.",
                        some ⟨["POST url is failed"]⟩⟩] })
      ∧ ∃ made : List PostCall,
          (AddComment notifySecondFails "storj/storj" "I6d20b5a8" "9288388" "https://review/1"
            ⟨0, []⟩).2.posts = [] ++ made
          ∧ ∀ p ∈ made.dropLast, p.result = none :=
  ⟨rfl,
    (AddComment_spec notifySecondFails "storj/storj" "I6d20b5a8" "9288388" "https://review/1"
      "Fixes #1\nSee acme/widgets#2\nand #3" ⟨0, []⟩ 1 rfl).imp
      (fun _ h => ⟨h.1, h.2.2.1⟩)⟩

theorem notifyLoop_all_ok {σ : Type} (b : NotifyBoundary σ) (project changeUrl : String)
    (hall : ∀ repo issue message s, (b.postComment repo issue message s).1 = none)
    (refs : List githubRef) :
    ∀ w : NotifyWorld σ,
      (notifyLoop b project changeUrl refs w).1 = none
        ∧ (notifyLoop b project changeUrl refs w).2.posts
          = w.posts ++ refs.map (fun r =>
              ⟨if r.repo = "" then project else r.repo, r.issue,
                "Change " ++ changeUrl ++ " mentions this issue.", none⟩) := by
  induction refs with
  | nil =>
    intro w
    simp [notifyLoop]
  | cons ref rest ih =>
    intro w
    have hrepo : (if ref.repo = "" then { ref with repo := project } else ref).repo
        = if ref.repo = "" then project else ref.repo := by
      split_ifs <;> rfl
    have hissue : (if ref.repo = "" then { ref with repo := project } else ref).issue
        = ref.issue := by
      split_ifs <;> rfl
    simp only [notifyLoop, hrepo, hissue, hall]
    obtain ⟨h₁, h₂⟩ := ih
      ⟨(b.postComment (if ref.repo = "" then project else ref.repo) ref.issue
          ("Change " ++ changeUrl ++ " mentions this issue.") w.state).2,
        w.posts ++ [⟨if ref.repo = "" then project else ref.repo, ref.issue,
          "Change " ++ changeUrl ++ " mentions this issue.", none⟩]⟩
    refine ⟨h₁, ?_⟩
    rw [h₂]
    simp

/-- C16 (counterexample): `subtractRefs` keeps a reference that occurs twice
in `current` twice, so its result has a repeated element; `findGithubRefs`
extracts `#1` from both lines of "Fixes #1\nSee also #1", and `AddComment`
posts the comment on issue 1 twice. -/
theorem subtractRefs_keeps_duplicates :
    subtractRefs [⟨"", "1"⟩, ⟨"", "1"⟩] [] = [⟨"", "1"⟩, ⟨"", "1"⟩]
      ∧ ¬ (subtractRefs [⟨"", "1"⟩, ⟨"", "1"⟩] []).Nodup
      ∧ findGithubRefs "Fixes #1\nSee also #1" = [⟨"", "1"⟩, ⟨"", "1"⟩]
      ∧ (AddComment notifyTwoLines "storj/storj" "I6d20b5a8" "9288388" "https://review/1"
          ⟨0, []⟩).2.posts
        = [⟨"storj/storj", "1", "Change https://review/1 mentions this issue.", none⟩,
           ⟨"storj/storj", "1", "Change https://review/1 mentions this issue.", none⟩] := by
  decide

/-- C16 (amended): `subtractRefs` removes the references of `previous` and
nothing else: a reference of `previous` does not occur in the result, every
other reference occurs in it exactly as often as in `current`, so the result is
free of repetitions when `current` is. `AddComment`, when the message fetch and
every post succeed, posts once for each element of `findGithubRefs m`,
repetitions included: a reference extracted from several lines is notified once
per line. -/
theorem subtractRefs_count {σ : Type} (current previous : List githubRef) (r : githubRef)
    (b : NotifyBoundary σ) (project change commit changeUrl m : String) (w : NotifyWorld σ)
    (s₁ : σ) :
    (subtractRefs current previous).count r = (if r ∈ previous then 0 else current.count r)
      ∧ (current.Nodup → (subtractRefs current previous).Nodup)
      ∧ (b.GetCommitMessage change commit w.state = (.ok m, s₁) →
          (∀ repo issue message s, (b.postComment repo issue message s).1 = none) →
          (AddComment b project change commit changeUrl w).2.posts
            = w.posts ++ (findGithubRefs m).map (fun r =>
                ⟨if r.repo = "" then project else r.repo, r.issue,
                  "Change " ++ changeUrl ++ " mentions this issue.", none⟩)) := by
  refine ⟨?_, ?_, ?_⟩
  · rw [subtractRefs_eq_filter]
    by_cases h : r ∈ previous
    · rw [if_pos h, List.count_eq_zero]
      intro hmem
      have := (List.mem_filter.1 hmem).2
      simp [h] at this
    · rw [if_neg h]
      exact List.count_filter (by simp [h])
  · intro hnd
    rw [subtractRefs_eq_filter]
    exact hnd.filter _
  · intro hfetch hall
    have h : AddComment b project change commit changeUrl w
        = notifyLoop b project changeUrl (findGithubRefs m) ⟨s₁, w.posts⟩ := by
      simp only [AddComment, hfetch, findGithubRefs_empty, subtractRefs_nil_right]
    rw [h]
    exact (notifyLoop_all_ok b project changeUrl hall (findGithubRefs m) ⟨s₁, w.posts⟩).2

/-! ## Claims on the line-by-line extraction -/

theorem findGithubRefsLine_append (refs : List githubRef) (line : String) :
    findGithubRefsLine refs line = refs ++ findGithubRefsLine [] line := by
  unfold findGithubRefsLine
  cases issuePattern.FindStringSubmatch line <;>
    cases urlPattern.FindStringSubmatch line <;> simp

theorem foldl_findGithubRefsLine (lines : List String) (refs : List githubRef) :
    lines.foldl findGithubRefsLine refs = refs ++ lines.flatMap (findGithubRefsLine []) := by
  induction lines generalizing refs with
  | nil => simp
  | cons l ls ih =>
    rw [List.foldl_cons, ih, findGithubRefsLine_append, List.flatMap_cons, List.append_assoc]

theorem findGithubRefsLine_length (line : String) :
    (findGithubRefsLine [] line).length ≤ 2 := by
  unfold findGithubRefsLine
  cases issuePattern.FindStringSubmatch line <;>
    cases urlPattern.FindStringSubmatch line <;> simp

theorem flatMap_length_le (lines : List String) :
    (lines.flatMap (findGithubRefsLine [])).length ≤ 2 * lines.length := by
  induction lines with
  | nil => simp
  | cons l ls ih =>
    have := findGithubRefsLine_length l
    simp only [List.flatMap_cons, List.length_append, List.length_cons]
    omega

theorem splitChars_ne_nil (sep : Char) (s : List Char) : splitChars sep s ≠ [] := by
  induction s with
  | nil => simp [splitChars]
  | cons c cs ih =>
    simp only [splitChars]
    split_ifs
    · simp
    · cases h : splitChars sep cs <;> simp

theorem splitChars_intercalate (sep : Char) (s : List Char) :
    [sep].intercalate (splitChars sep s) = s := by
  induction s with
  | nil => simp [splitChars, List.intercalate]
  | cons c cs ih =>
    simp only [splitChars]
    split_ifs with hc
    · cases h : splitChars sep cs with
      | nil => exact absurd h (splitChars_ne_nil sep cs)
      | cons part parts =>
        rw [h] at ih
        simp only [List.intercalate, List.intersperse, List.flatten] at ih ⊢
        simp [ih, hc]
    · cases h : splitChars sep cs with
      | nil => exact absurd h (splitChars_ne_nil sep cs)
      | cons part parts =>
        rw [h] at ih
        cases parts with
        | nil =>
          simp only [List.intercalate, List.intersperse, List.flatten] at ih ⊢
          simpa using ih
        | cons q qs =>
          simp only [List.intercalate, List.intersperse, List.flatten] at ih ⊢
          simpa using ih

theorem splitChars_no_sep_mem (sep : Char) (s : List Char) :
    ∀ part ∈ splitChars sep s, sep ∉ part := by
  induction s with
  | nil => simp [splitChars]
  | cons c cs ih =>
    simp only [splitChars]
    split_ifs with hc
    · intro part hp
      rcases List.mem_cons.1 hp with rfl | hp
      · simp
      · exact ih part hp
    · cases h : splitChars sep cs with
      | nil => exact absurd h (splitChars_ne_nil sep cs)
      | cons q qs =>
        rw [h] at ih
        intro part hp
        rcases List.mem_cons.1 hp with rfl | hp
        · intro hm
          rcases List.mem_cons.1 hm with e | hm
          · exact hc e.symm
          · exact ih q (List.mem_cons_self _ _) hm
        · exact ih part (List.mem_cons_of_mem _ hp)
theorem Split_lines (message : String) :
    ['\n'].intercalate ((strings.Split message '\n').map String.data) = message.data
      ∧ ∀ line ∈ strings.Split message '\n', '\n' ∉ line.data := by
  unfold strings.Split
  constructor
  · rw [List.map_map]
    have : (String.data ∘ String.mk) = id := by
      funext l
      rfl
    rw [this, List.map_id, splitChars_intercalate]
  · intro line hl
    obtain ⟨part, hp, rfl⟩ := List.mem_map.1 hl
    exact splitChars_no_sep_mem _ _ part hp

/-- C17: `findGithubRefs message` is the concatenation, in line order, of the
references of each line of `strings.Split(message, "\n")`; the references of a
line are the shorthand match, if any, followed by the URL match, if any, so at
most two; the number of references is at most twice the number of lines; and
`findGithubRefs ""` is empty. The lines contain no newline and give back the
message when joined by newlines. -/
theorem findGithubRefs_per_line (message : String) :
    (['\n'].intercalate ((strings.Split message '\n').map String.data) = message.data
        ∧ ∀ line ∈ strings.Split message '\n', '\n' ∉ line.data)
      ∧ findGithubRefs message
        = (strings.Split message '\n').flatMap (findGithubRefsLine [])
      ∧ (∀ line : String, findGithubRefsLine [] line
          = ((issuePattern.FindStringSubmatch line).map
              (fun m => ({ repo := m.getD 1 "", issue := m.getD 2 "" } : githubRef))).toList
            ++ ((urlPattern.FindStringSubmatch line).map
              (fun m => ({ repo := m.getD 1 "", issue := m.getD 2 "" } : githubRef))).toList)
      ∧ (findGithubRefs message).length ≤ 2 * (strings.Split message '\n').length
      ∧ findGithubRefs "" = [] := by
  have h : findGithubRefs message
      = (strings.Split message '\n').flatMap (findGithubRefsLine []) := by
    unfold findGithubRefs
    rw [foldl_findGithubRefsLine]
    simp
  refine ⟨Split_lines message, h, ?_, ?_, findGithubRefs_empty⟩
  · intro line
    unfold findGithubRefsLine
    cases issuePattern.FindStringSubmatch line <;>
      cases urlPattern.FindStringSubmatch line <;> simp
  · rw [h]
    exact flatMap_length_le _

/-! ## Claims on panics: `gerritHTTPCall` and the argument loop of `main` -/

/-- C15 (the code at the failing input): with status 200 and an empty body, or
the 4-byte body `)]}'`, `gerritHTTPCall` panics at `body[5:]` instead of
returning an error; for every status code, body and decoder it panics exactly
when the status is below 300 and the body is shorter than 5 bytes. -/
theorem gerritHTTPCall_short_body_panics {α : Type} (unmarshal : List UInt8 → Except Err α)
    (code : Nat) (body : List UInt8) :
    gerritHTTPCall none (.ok ⟨200, .ok []⟩) unmarshal
        = .panicked "slice bounds out of range"
      ∧ gerritHTTPCall none (.ok ⟨200, .ok [41, 93, 125, 39]⟩) unmarshal
        = .panicked "slice bounds out of range"
      ∧ ((∃ reason, gerritHTTPCall none (.ok ⟨code, .ok body⟩) unmarshal = .panicked reason)
          ↔ (code < 300 ∧ body.length < 5)) := by
  refine ⟨rfl, rfl, ?_⟩
  unfold gerritHTTPCall sliceFrom
  by_cases hc : code ≥ 300
  · simp only [hc, if_true]
    constructor
    · rintro ⟨reason, h⟩
      cases h
    · rintro ⟨h, _⟩
      omega
  · by_cases hb : 5 ≤ body.length
    · simp only [hc, hb, if_false, if_true]
      constructor
      · rintro ⟨reason, h⟩
        cases hu : unmarshal (List.drop 5 body) <;> rw [hu] at h <;> cases h
      · rintro ⟨_, h⟩
        omega
    · simp only [hc, hb, if_false]
      constructor
      · intro _
        exact ⟨by omega, by omega⟩
      · intro _
        exact ⟨_, rfl⟩

theorem argLoop_fuel (args : List String) :
    ∀ (fuel p : Nat) (argMap : List (String × String)),
      0 < fuel → args.length < fuel + p → argLoop args fuel p argMap ≠ none := by
  intro fuel
  induction fuel with
  | zero =>
    intro p argMap h₀
    omega
  | succ n ih =>
    intro p argMap _ h
    unfold argLoop
    by_cases hp : p < args.length
    · simp only [hp, if_true, gt_iff_lt]
      cases hnext : args[p + 1]? with
      | none => simp
      | some next =>
        simp only []
        by_cases hd : hasDashes next = true
        · simp only [hd, Bool.not_true, Bool.false_eq_true, if_false]
          exact ih (p + 1) argMap (by omega) (by omega)
        · simp only [hd, Bool.not_eq_true] at hd ⊢
          simp only [hd, Bool.not_false, if_true]
          cases harg : args[p]? with
          | none => simp
          | some arg =>
            simp only []
            split_ifs
            · have hlen : p + 1 < args.length := by
                rcases List.getElem?_eq_some_iff.1 hnext with ⟨hlt, _⟩
                exact hlt
              exact ih (p + 1 + 1) _ (by omega) (by omega)
            · simp
    · simp [hp]

/-- C18 (the code at the failing input): the argument loop of `main` always
ends (the fuel never runs out), and with a program name followed by a single
argument, or with a last `--key` that has no value after it, it reads
`os.Args[p+1]` past the end of the list and panics. -/
theorem parseArgs_trailing_key_panics (args : List String) (program key : String) :
    parseArgs args ≠ none
      ∧ parseArgs [program, key] = some (.panicked "index out of range")
      ∧ parseArgs ["patchset-created", "--project"] = some (.panicked "index out of range")
      ∧ parseArgs ["patchset-created", "--project", "storj/storj", "--change"]
        = some (.panicked "index out of range")
      ∧ parseArgs ["patchset-created", "--project", "storj/storj", "--change", "I6d20b5a8"]
        = some (.returned [("change", "I6d20b5a8"), ("project", "storj/storj")]) := by
  refine ⟨argLoop_fuel args _ 1 [] (by omega) (by omega), rfl, rfl, by decide, by decide⟩

end GerritHook
